import Mathlib

/-!
Verification of the improxy image-proxy core against its specification.

The Go sources are shallowly embedded:
* strings are modelled as `String` / `List Char` (the requests and options
  handled by the proxy are ASCII, so Go's byte-level slicing coincides with
  the character-level model);
* Go `int`/`int64` values are modelled as `Int`, Go unsigned values as `Nat`
  with explicit `% 2^w` where truncation matters; Go `/` and `%` on signed
  integers are modelled with `Int.tdiv` / `Int.tmod` (truncated division,
  Go's semantics);
* Go `float64` values are modelled as exact rationals (`ℚ`): the option
  widths and resize scale factors stay well inside the range where the
  float computations of the source are exact or round-trip exactly, and
  `fmt %v` / `strconv.ParseFloat` are modelled as exact decimal printing
  and parsing;
* external collaborators (image codecs, HMAC, `url.Parse`) are abstracted
  as function parameters; everything written by this repository is
  translated from the source.
-/

namespace Improxy

/-! ### Characters and decimal digits -/

/-- Character list of a string (the byte/character model of Go strings). -/
def chars (s : String) : List Char := s.data

/-- String from a character list. -/
def ofChars (cs : List Char) : String := String.mk cs

theorem chars_ofChars (cs : List Char) : chars (ofChars cs) = cs := rfl

theorem ofChars_chars (s : String) : ofChars (chars s) = s := rfl

/-- Decimal digit to its character. -/
def digitChar (d : Nat) : Char :=
  match d with
  | 0 => '0' | 1 => '1' | 2 => '2' | 3 => '3' | 4 => '4'
  | 5 => '5' | 6 => '6' | 7 => '7' | 8 => '8' | 9 => '9'
  | _ => '*'

/-- Character to decimal digit value, `none` for non-digits. -/
def digitVal (c : Char) : Option Nat :=
  if 48 ≤ c.toNat ∧ c.toNat ≤ 57 then some (c.toNat - 48) else none

theorem digitVal_digitChar : ∀ d < 10, digitVal (digitChar d) = some d := by decide

/-- Decimal digits of `n`, least significant first; `fuel ≥ n` makes it total. -/
def natDigitsRev (fuel n : Nat) : List Nat :=
  match fuel with
  | 0 => []
  | fuel + 1 => if n = 0 then [] else n % 10 :: natDigitsRev fuel (n / 10)

/-- Value of a least-significant-first digit list. -/
def valNatRev (ds : List Nat) : Nat :=
  match ds with
  | [] => 0
  | d :: ds => d + 10 * valNatRev ds

theorem valNatRev_natDigitsRev : ∀ fuel n, n ≤ fuel → valNatRev (natDigitsRev fuel n) = n := by
  intro fuel
  induction fuel with
  | zero => intro n hn; interval_cases n; rfl
  | succ f ih =>
    intro n hn
    by_cases h0 : n = 0
    · simp [natDigitsRev, h0, valNatRev]
    · have hdiv : n / 10 ≤ f := by
        have := Nat.div_lt_self (Nat.pos_of_ne_zero h0) (by norm_num : 1 < 10)
        omega
      simp [natDigitsRev, h0, valNatRev, ih _ hdiv]
      omega

theorem natDigitsRev_lt : ∀ fuel n d, d ∈ natDigitsRev fuel n → d < 10 := by
  intro fuel
  induction fuel with
  | zero => intro n d hd; simp [natDigitsRev] at hd
  | succ f ih =>
    intro n d hd
    by_cases h0 : n = 0
    · simp [natDigitsRev, h0] at hd
    · simp only [natDigitsRev, h0, if_false] at hd
      rcases List.mem_cons.1 hd with h | h
      · omega
      · exact ih _ _ h

/-- Character form of `n` in decimal, most significant digit first (Go `%d` of
a nonnegative integer). -/
def natToChars (n : Nat) : List Char :=
  if n = 0 then ['0'] else (natDigitsRev n n).reverse.map digitChar

theorem natToChars_ne_nil (n : Nat) : natToChars n ≠ [] := by
  unfold natToChars
  by_cases h0 : n = 0
  · simp [h0]
  · have h1 : natDigitsRev n n ≠ [] := by
      unfold natDigitsRev
      match n, h0 with
      | n + 1, _ => simp
    simp [h0]
    intro h
    exact h1 (List.eq_nil_of_length_eq_zero (by simpa using congrArg List.length h))

theorem natToChars_all_digits : ∀ n c, c ∈ natToChars n → (digitVal c).isSome := by
  intro n c hc
  unfold natToChars at hc
  by_cases h0 : n = 0
  · simp [h0] at hc; subst hc; decide
  · simp only [h0, if_false, List.mem_map, List.mem_reverse] at hc
    obtain ⟨d, hd, rfl⟩ := hc
    have := natDigitsRev_lt n n d hd
    rw [digitVal_digitChar d this]
    rfl

/-- Left fold parsing of decimal characters onto an accumulator; `none` on the
first non-digit. -/
def parseNatFold (acc : Nat) (cs : List Char) : Option Nat :=
  match cs with
  | [] => some acc
  | c :: cs =>
    match digitVal c with
    | some d => parseNatFold (acc * 10 + d) cs
    | none => none

/-- Parse a nonempty all-digit list of characters. -/
def parseNatChars (cs : List Char) : Option Nat :=
  if cs.isEmpty then none else parseNatFold 0 cs

theorem parseNatFold_append (xs ys : List Char) :
    ∀ acc, parseNatFold acc (xs ++ ys) =
      match parseNatFold acc xs with
      | some a => parseNatFold a ys
      | none => none := by
  induction xs with
  | nil => intro acc; rfl
  | cons c rest ih =>
    intro acc
    simp only [List.cons_append, parseNatFold]
    cases digitVal c with
    | none => rfl
    | some d => exact ih _

theorem parseNatFold_digits (ds : List Nat) :
    ∀ acc, (∀ d ∈ ds, d < 10) →
      parseNatFold acc (ds.map digitChar) = some (ds.foldl (fun a d => a * 10 + d) acc) := by
  induction ds with
  | nil => intro acc _; rfl
  | cons d rest ih =>
    intro acc h
    have hd : d < 10 := h d (List.mem_cons_self d rest)
    simp only [List.map_cons, parseNatFold, digitVal_digitChar d hd, List.foldl_cons]
    exact ih _ (fun x hx => h x (List.mem_cons_of_mem d hx))

theorem foldl_reverse_valNatRev (ds : List Nat) :
    ∀ acc, ds.reverse.foldl (fun a d => a * 10 + d) acc = acc * 10 ^ ds.length + valNatRev ds := by
  induction ds with
  | nil => intro acc; simp [valNatRev]
  | cons d rest ih =>
    intro acc
    simp only [List.reverse_cons, List.foldl_append, List.foldl_cons, List.foldl_nil, ih,
      valNatRev, List.length_cons]
    ring

theorem parseNatChars_natToChars (n : Nat) : parseNatChars (natToChars n) = some n := by
  by_cases h0 : n = 0
  · subst h0; rfl
  · unfold parseNatChars natToChars
    simp only [h0, if_false]
    have hne : natDigitsRev n n ≠ [] := by
      unfold natDigitsRev
      match n, h0 with
      | n + 1, _ => simp
    have hempty : (((natDigitsRev n n).reverse.map digitChar).isEmpty) = false := by
      simp [List.isEmpty_iff, hne]
    rw [hempty]
    simp only [Bool.false_eq_true, if_false]
    have hdig : ∀ d ∈ (natDigitsRev n n).reverse, d < 10 := by
      intro d hd
      exact natDigitsRev_lt n n d (List.mem_reverse.1 hd)
    rw [parseNatFold_digits _ 0 hdig, foldl_reverse_valNatRev]
    simp [valNatRev_natDigitsRev n n (le_refl n)]

theorem parseNatFold_replicate_zero (k : Nat) (cs : List Char) :
    parseNatFold 0 (List.replicate k '0' ++ cs) = parseNatFold 0 cs := by
  induction k with
  | zero => rfl
  | succ k ih => simpa [List.replicate_succ, parseNatFold, digitVal] using ih

/-- Character form of an integer in decimal (Go `%d`). -/
def intToChars (i : Int) : List Char :=
  if i < 0 then '-' :: natToChars i.natAbs else natToChars i.toNat

/-- Parse of an optionally signed decimal integer (models `strconv.Atoi`;
the int64 overflow of Go is not modelled, the repository's values stay small). -/
def parseIntChars (cs : List Char) : Option Int :=
  match cs with
  | [] => none
  | c :: rest =>
    if c = '-' then
      match parseNatChars rest with
      | some n => some (-(n : Int))
      | none => none
    else if c = '+' then
      match parseNatChars rest with
      | some n => some ((n : Int))
      | none => none
    else
      match parseNatChars (c :: rest) with
      | some n => some ((n : Int))
      | none => none

/-- Go pattern `value, _ = strconv.Atoi(s)`: the parsed value, `0` on error. -/
def atoiC (cs : List Char) : Int := (parseIntChars cs).getD 0

theorem head_natToChars_not_sign (n : Nat) (c : Char) (cs : List Char)
    (h : natToChars n = c :: cs) : c ≠ '-' ∧ c ≠ '+' := by
  have hc : (digitVal c).isSome := natToChars_all_digits n c (h ▸ List.mem_cons_self c cs)
  constructor
  · rintro rfl; simp [digitVal] at hc
  · rintro rfl; simp [digitVal] at hc

theorem parseIntChars_intToChars (i : Int) : parseIntChars (intToChars i) = some i := by
  unfold intToChars
  by_cases hneg : i < 0
  · simp only [hneg, if_true]
    obtain ⟨c, cs, hc⟩ := List.exists_cons_of_ne_nil (natToChars_ne_nil i.natAbs)
    have hp := parseNatChars_natToChars i.natAbs
    rw [hc] at hp ⊢
    simp [parseIntChars, hp]
    simp [abs_of_neg hneg]
  · simp only [hneg, if_false]
    obtain ⟨c, cs, hc⟩ := List.exists_cons_of_ne_nil (natToChars_ne_nil i.toNat)
    obtain ⟨h1, h2⟩ := head_natToChars_not_sign i.toNat c cs hc
    have hp := parseNatChars_natToChars i.toNat
    rw [hc] at hp ⊢
    simp [parseIntChars, if_neg h1, if_neg h2, hp]
    omega

theorem atoiC_intToChars (i : Int) : atoiC (intToChars i) = i := by
  simp [atoiC, parseIntChars_intToChars]

/-! ### Exact decimal model of float64 printing and parsing -/

/-- Search upward from `e` for the least exponent with `den ∣ 10 ^ e`. -/
def findDecExpAux (den : Nat) : Nat → Nat → Option Nat
  | e, 0 => if den ∣ 10 ^ e then some e else none
  | e, fuel + 1 => if den ∣ 10 ^ e then some e else findDecExpAux den (e + 1) fuel

/-- Least `e` with `den ∣ 10 ^ e`, for denominators of decimal rationals. -/
def findDecExp (den : Nat) : Option Nat := findDecExpAux den 0 den

/-- Decimal decomposition of a rational: `q = m / 10 ^ e` with `e` minimal.
Every finite float64 value is such a decimal rational. -/
def ratDecParts (q : ℚ) : Option (Int × Nat) :=
  match findDecExp q.den with
  | none => none
  | some e => some (q.num * ((10 ^ e / q.den : Nat) : Int), e)

/-- Characters of the decimal number `m / 10 ^ e` in Go `%v` style
(`"1.5"`, `"0.25"`, `"-3"`, `"100"`). -/
def decPartsToChars (m : Int) (e : Nat) : List Char :=
  if e = 0 then intToChars m
  else
    let ds0 := natToChars m.natAbs
    let ds := if ds0.length ≤ e then List.replicate (e + 1 - ds0.length) '0' ++ ds0 else ds0
    (if m < 0 then ['-'] else []) ++ ds.take (ds.length - e) ++ '.' :: ds.drop (ds.length - e)

/-- Go `fmt %v` of a float64, modelled as exact decimal printing of the
rational value (`[]` for values outside the decimal model, which no finite
float64 produces). -/
def goFloatChars (q : ℚ) : List Char :=
  match ratDecParts q with
  | some (m, e) => decPartsToChars m e
  | none => []

/-- Split on a separator character (Go `strings.Split` with a one-character
separator). -/
def splitOnChar (sep : Char) : List Char → List (List Char)
  | [] => [[]]
  | c :: cs =>
    match splitOnChar sep cs with
    | [] => [[c]]
    | grp :: rest => if c = sep then [] :: grp :: rest else (c :: grp) :: rest

theorem splitOnChar_ne_nil (sep : Char) (cs : List Char) : splitOnChar sep cs ≠ [] := by
  cases cs with
  | nil => simp [splitOnChar]
  | cons c cs =>
    unfold splitOnChar
    cases splitOnChar sep cs with
    | nil => simp
    | cons grp rest =>
      by_cases h : c = sep <;> simp [h]

theorem splitOnChar_no_sep (sep : Char) (cs : List Char) (h : sep ∉ cs) :
    splitOnChar sep cs = [cs] := by
  induction cs with
  | nil => rfl
  | cons c rest ih =>
    have hc : c ≠ sep := fun hcs => h (hcs ▸ List.mem_cons_self c rest)
    have hr : sep ∉ rest := fun hm => h (List.mem_cons_of_mem c hm)
    unfold splitOnChar
    rw [ih hr]
    simp [hc]

theorem splitOnChar_append_sep (sep : Char) (a b : List Char) (ha : sep ∉ a) :
    splitOnChar sep (a ++ sep :: b) = a :: splitOnChar sep b := by
  induction a with
  | nil =>
    simp only [List.nil_append, splitOnChar]
    cases hb : splitOnChar sep b with
    | nil => exact absurd hb (splitOnChar_ne_nil sep b)
    | cons g r => simp
  | cons c rest ih =>
    have hc : c ≠ sep := fun hcs => ha (hcs ▸ List.mem_cons_self c rest)
    have hr : sep ∉ rest := fun hm => ha (List.mem_cons_of_mem c hm)
    simp only [List.cons_append, splitOnChar, List.append_eq]
    rw [ih hr]
    simp [hc]

/-- Decimal core of `strconv.ParseFloat`: unsigned `digits[.digits]`. -/
def parseFloatCore (cs : List Char) : Option ℚ :=
  match splitOnChar '.' cs with
  | [ip] =>
    match parseNatChars ip with
    | some n => some (mkRat n 1)
    | none => none
  | [ip, fp] =>
    if ip = [] ∧ fp = [] then none
    else
      match parseNatFold 0 (ip ++ fp) with
      | some n => some (mkRat n (10 ^ fp.length))
      | none => none
  | _ => none

/-- Go `strconv.ParseFloat` on the decimal fragment the option grammar feeds
it (exponent, hex and inf/nan forms never arise there). -/
def parseFloatChars (cs : List Char) : Option ℚ :=
  match cs with
  | [] => none
  | c :: rest =>
    if c = '-' then
      match parseFloatCore rest with
      | some q => some (-q)
      | none => none
    else if c = '+' then parseFloatCore rest
    else parseFloatCore (c :: rest)

theorem findDecExpAux_dvd (den : Nat) :
    ∀ fuel e r, findDecExpAux den e fuel = some r → den ∣ 10 ^ r := by
  intro fuel
  induction fuel with
  | zero =>
    intro e r h
    unfold findDecExpAux at h
    by_cases hd : den ∣ 10 ^ e
    · simp [hd] at h; exact h ▸ hd
    · simp [hd] at h
  | succ f ih =>
    intro e r h
    unfold findDecExpAux at h
    by_cases hd : den ∣ 10 ^ e
    · simp [hd] at h; exact h ▸ hd
    · simp [hd] at h; exact ih _ _ h

theorem ratDecParts_dvd (q : ℚ) (m : Int) (e : Nat) (h : ratDecParts q = some (m, e)) :
    q.den ∣ 10 ^ e := by
  unfold ratDecParts at h
  cases hf : findDecExp q.den with
  | none => rw [hf] at h; exact absurd h (by simp)
  | some r =>
    rw [hf] at h
    simp only [Option.some.injEq, Prod.mk.injEq] at h
    obtain ⟨_, rfl⟩ := h
    exact findDecExpAux_dvd q.den q.den 0 r hf

theorem ratDecParts_val (q : ℚ) (m : Int) (e : Nat) (h : ratDecParts q = some (m, e)) :
    (m : ℚ) = q * 10 ^ e := by
  have hdvd : q.den ∣ 10 ^ e := ratDecParts_dvd q m e h
  unfold ratDecParts at h
  cases hf : findDecExp q.den with
  | none => rw [hf] at h; exact absurd h (by simp)
  | some r =>
    rw [hf] at h
    simp only [Option.some.injEq, Prod.mk.injEq] at h
    obtain ⟨rfl, rfl⟩ := h
    have hden : (q.den : ℚ) ≠ 0 := Nat.cast_ne_zero.2 q.den_nz
    have h10 : (((10 ^ r / q.den : Nat) : Int) : ℚ) = (10 : ℚ) ^ r / (q.den : ℚ) := by
      rw [Int.cast_natCast, Nat.cast_div hdvd hden]
      norm_num
    rw [Int.cast_mul, h10]
    conv_rhs => rw [← Rat.num_div_den q]
    field_simp

theorem ne_of_digitVal_isSome (c x : Char) (hc : (digitVal c).isSome)
    (hx : digitVal x = none) : c ≠ x := by
  intro h
  rw [h, hx] at hc
  simp at hc

theorem digitVal_dot : digitVal '.' = none := by decide

theorem digitVal_dash : digitVal '-' = none := by decide

theorem digitVal_plus : digitVal '+' = none := by decide

theorem mkRat_cast_div (a : Int) (b : Nat) : (mkRat a b : ℚ) = (a : ℚ) / (b : ℚ) := by
  rw [Rat.mkRat_eq_divInt, Rat.divInt_eq_div]
  norm_num

theorem decPartsToChars_zero (m : Int) : decPartsToChars m 0 = intToChars m := rfl

theorem parseFloatCore_digits (n : Nat) :
    parseFloatCore (natToChars n) = some (mkRat n 1) := by
  have hno : '.' ∉ natToChars n := by
    intro hmem
    have := natToChars_all_digits n '.' hmem
    simp [digitVal_dot] at this
  unfold parseFloatCore
  rw [splitOnChar_no_sep '.' _ hno]
  have hp := parseNatChars_natToChars n
  simp [hp]

theorem parseNatFold_eq_parseNatChars (cs : List Char) (h : cs ≠ []) :
    parseNatFold 0 cs = parseNatChars cs := by
  unfold parseNatChars
  simp [List.isEmpty_iff, h]

theorem cast_natAbs_of_neg (m : Int) (hm : m < 0) : ((m.natAbs : Nat) : ℚ) = -(m : ℚ) := by
  rw [← @Int.cast_natCast ℚ _ m.natAbs, show ((m.natAbs : Int)) = -m by omega]
  push_cast
  ring

theorem cast_toNat_of_nonneg (m : Int) (hm : ¬ m < 0) : ((m.toNat : Nat) : ℚ) = (m : ℚ) := by
  rw [← @Int.cast_natCast ℚ _ m.toNat, show ((m.toNat : Int)) = m by omega]

theorem parseFloatChars_dash (rest : List Char) :
    parseFloatChars ('-' :: rest) =
      match parseFloatCore rest with
      | some q0 => some (-q0)
      | none => none := rfl

theorem parseFloatChars_of_head_ne (c : Char) (rest : List Char) (h1 : c ≠ '-')
    (h2 : c ≠ '+') : parseFloatChars (c :: rest) = parseFloatCore (c :: rest) := by
  show (if c = '-' then
      match parseFloatCore rest with
      | some q0 => some (-q0)
      | none => none
    else if c = '+' then parseFloatCore rest else parseFloatCore (c :: rest)) =
    parseFloatCore (c :: rest)
  rw [if_neg h1, if_neg h2]

/-- Round trip of the decimal float model: printing a decimal rational with
Go `%v` and parsing the result with `strconv.ParseFloat` recovers the value. -/
theorem parseFloatChars_goFloatChars (q : ℚ) (m : Int) (e : Nat)
    (h : ratDecParts q = some (m, e)) : parseFloatChars (goFloatChars q) = some q := by
  have hval : (m : ℚ) = q * 10 ^ e := ratDecParts_val q m e h
  have hq : q = (m : ℚ) / 10 ^ e := by
    rw [hval]
    field_simp
  have hgo : goFloatChars q = decPartsToChars m e := by
    unfold goFloatChars
    rw [h]
  rw [hgo]
  by_cases he : e = 0
  · subst he
    have hq0 : q = (m : ℚ) := by simpa using hq
    rw [decPartsToChars_zero]
    unfold intToChars
    by_cases hm : m < 0
    · simp only [hm, if_true]
      rw [parseFloatChars_dash, parseFloatCore_digits m.natAbs]
      show some (-(mkRat (m.natAbs : Int) 1 : ℚ)) = some q
      congr 1
      rw [mkRat_cast_div, @Int.cast_natCast ℚ _ m.natAbs, cast_natAbs_of_neg m hm, hq0]
      norm_num
    · simp only [hm, if_false]
      obtain ⟨c, cs, hc⟩ := List.exists_cons_of_ne_nil (natToChars_ne_nil m.toNat)
      have hdig : (digitVal c).isSome := natToChars_all_digits _ c (hc ▸ List.mem_cons_self c cs)
      have h1 : c ≠ '-' := ne_of_digitVal_isSome c _ hdig digitVal_dash
      have h2 : c ≠ '+' := ne_of_digitVal_isSome c _ hdig digitVal_plus
      rw [hc, parseFloatChars_of_head_ne c cs h1 h2, ← hc, parseFloatCore_digits m.toNat]
      congr 1
      rw [mkRat_cast_div, @Int.cast_natCast ℚ _ m.toNat, cast_toNat_of_nonneg m hm, hq0]
      norm_num
  · -- fractional case: the printed form is sign ++ intPart ++ '.' :: fracPart
    unfold decPartsToChars
    simp only [he, if_false]
    set ds0 := natToChars m.natAbs with hds0
    set ds : List Char := if ds0.length ≤ e then List.replicate (e + 1 - ds0.length) '0' ++ ds0 else ds0 with hds
    have hdsrep : ∃ k, ds = List.replicate k '0' ++ ds0 := by
      by_cases hle : ds0.length ≤ e
      · exact ⟨e + 1 - ds0.length, by rw [hds, if_pos hle]⟩
      · exact ⟨0, by rw [hds, if_neg hle]; simp⟩
    obtain ⟨k, hk⟩ := hdsrep
    have hLlen : e + 1 ≤ ds.length := by
      by_cases hle : ds0.length ≤ e
      · rw [hds, if_pos hle]
        simp only [List.length_append, List.length_replicate]
        omega
      · rw [hds, if_neg hle]
        omega
    have hdsdig : ∀ c ∈ ds, (digitVal c).isSome := by
      intro c hcm
      rw [hk] at hcm
      rcases List.mem_append.1 hcm with hrep | hmem
      · rw [List.eq_of_mem_replicate hrep]
        decide
      · exact natToChars_all_digits _ c hmem
    have htakedig : ∀ c ∈ ds.take (ds.length - e), (digitVal c).isSome :=
      fun c hcm => hdsdig c (List.mem_of_mem_take hcm)
    have hdropdig : ∀ c ∈ ds.drop (ds.length - e), (digitVal c).isSome :=
      fun c hcm => hdsdig c (List.mem_of_mem_drop hcm)
    have hnotake : '.' ∉ ds.take (ds.length - e) := by
      intro hmem
      have := htakedig _ hmem
      simp [digitVal_dot] at this
    have hnodrop : '.' ∉ ds.drop (ds.length - e) := by
      intro hmem
      have := hdropdig _ hmem
      simp [digitVal_dot] at this
    have htklen : (ds.take (ds.length - e)).length = ds.length - e := by
      rw [List.length_take]
      omega
    have htkne : ds.take (ds.length - e) ≠ [] := by
      intro hnil
      rw [hnil] at htklen
      simp at htklen
      omega
    have hdroplen : (ds.drop (ds.length - e)).length = e := by
      rw [List.length_drop]
      omega
    have hcore : parseFloatCore (ds.take (ds.length - e) ++ '.' :: ds.drop (ds.length - e)) =
        some (mkRat m.natAbs (10 ^ e)) := by
      unfold parseFloatCore
      rw [splitOnChar_append_sep '.' _ _ hnotake, splitOnChar_no_sep '.' _ hnodrop]
      have hne2 : ¬ (ds.take (ds.length - e) = [] ∧ ds.drop (ds.length - e) = []) := by
        intro hand
        exact htkne hand.1
      simp only [hne2, if_false]
      rw [hdroplen, List.take_append_drop, hk, parseNatFold_replicate_zero,
        parseNatFold_eq_parseNatChars ds0 (natToChars_ne_nil m.natAbs), hds0,
        parseNatChars_natToChars]
    have habs2 : (((m.natAbs : Nat) : Int) : ℚ) = ((m.natAbs : Nat) : ℚ) :=
      @Int.cast_natCast ℚ _ m.natAbs
    by_cases hm : m < 0
    · simp only [hm, if_true]
      rw [show (['-'] : List Char) ++ ds.take (ds.length - e) ++ '.' :: ds.drop (ds.length - e) =
        '-' :: (ds.take (ds.length - e) ++ '.' :: ds.drop (ds.length - e)) by simp]
      rw [parseFloatChars_dash, hcore]
      show some (-(mkRat (m.natAbs : Int) (10 ^ e) : ℚ)) = some q
      congr 1
      rw [mkRat_cast_div, habs2, cast_natAbs_of_neg m hm, hq]
      push_cast
      ring
    · simp only [hm, if_false]
      obtain ⟨c, cs, hc⟩ := List.exists_cons_of_ne_nil htkne
      have hdig : (digitVal c).isSome := htakedig c (hc ▸ List.mem_cons_self c cs)
      have h1 : c ≠ '-' := ne_of_digitVal_isSome c _ hdig digitVal_dash
      have h2 : c ≠ '+' := ne_of_digitVal_isSome c _ hdig digitVal_plus
      rw [show ([] : List Char) ++ ds.take (ds.length - e) ++ '.' :: ds.drop (ds.length - e) =
        ds.take (ds.length - e) ++ '.' :: ds.drop (ds.length - e) by simp]
      have hhead : ds.take (ds.length - e) ++ '.' :: ds.drop (ds.length - e) =
          c :: (cs ++ '.' :: ds.drop (ds.length - e)) := by rw [hc]; rfl
      rw [hhead, parseFloatChars_of_head_ne c _ h1 h2, ← hhead, hcore]
      congr 1
      have habs : ((m.natAbs : Nat) : ℚ) = (m : ℚ) := by
        rw [← @Int.cast_natCast ℚ _ m.natAbs, show ((m.natAbs : Int)) = m by omega]
      rw [mkRat_cast_div, habs2, habs, hq]
      push_cast
      ring

/-! ### Options and the option DSL (package imageproxy, src/unnamed/part_001) -/

/-- Transformation options (struct `Options`); `Width`/`Height` are float64 in
the source, modelled as exact rationals. -/
structure Options where
  width : ℚ
  height : ℚ
  fit : Bool
  rotate : Int
  flipVertical : Bool
  flipHorizontal : Bool
  quality : Int
  format : String
deriving DecidableEq, Repr

/-- Go zero value of `Options`. -/
def emptyOptions : Options := ⟨0, 0, false, 0, false, false, 0, ""⟩

/-- Character containment (Go `strings.Contains` with one-character substring). -/
def containsC (c : Char) : List Char → Bool
  | [] => false
  | a :: as => if a = c then true else containsC c as

theorem containsC_eq_true_iff (c : Char) (cs : List Char) :
    containsC c cs = true ↔ c ∈ cs := by
  induction cs with
  | nil => simp [containsC]
  | cons a as ih =>
    unfold containsC
    by_cases h : a = c
    · subst h
      simp
    · simp only [h, if_false, ih]
      constructor
      · exact fun hm => List.mem_cons_of_mem a hm
      · intro hm
        rcases List.mem_cons.1 hm with h1 | h1
        · exact absurd h1.symm h
        · exact h1

/-- First-separator split (Go `strings.SplitN(s, sep, 2)` when the separator
occurs; `none` when it does not). -/
def splitFirst (sep : Char) : List Char → Option (List Char × List Char)
  | [] => none
  | c :: cs =>
    if c = sep then some ([], cs)
    else (splitFirst sep cs).map (fun p => (c :: p.1, p.2))

theorem splitFirst_append (sep : Char) (a b : List Char) (ha : sep ∉ a) :
    splitFirst sep (a ++ sep :: b) = some (a, b) := by
  induction a with
  | nil => simp [splitFirst]
  | cons c rest ih =>
    have hc : c ≠ sep := fun hcs => ha (hcs ▸ List.mem_cons_self c rest)
    have hr : sep ∉ rest := fun hm => ha (List.mem_cons_of_mem c hm)
    simp only [List.cons_append, splitFirst, if_neg hc, List.append_eq, ih hr,
      Option.map_some']

/-- One `case` of the `switch` in `ParseOptions`, applied to the running
`options` value (cases in source order, last assignment wins). -/
def parseOptToken (o : Options) (opt : List Char) : Options :=
  if opt.length = 0 then o
  else if opt = chars "fit" then { o with fit := true }
  else if opt = chars "fv" then { o with flipVertical := true }
  else if opt = chars "fh" then { o with flipHorizontal := true }
  else if opt.take 1 = ['r'] then { o with rotate := atoiC (opt.drop 1) }
  else if opt.take 1 = ['q'] then { o with quality := atoiC (opt.drop 1) }
  else if opt.take 1 = ['f'] then { o with format := ofChars (opt.drop 1) }
  else if containsC 'x' opt then
    match splitFirst 'x' opt with
    | some (w, h) =>
      let o2 := if w ≠ [] then { o with width := (parseFloatChars w).getD 0 } else o
      if h ≠ [] then { o2 with height := (parseFloatChars h).getD 0 } else o2
    | none => o
  else if containsC '*' opt then
    match splitFirst '*' opt with
    | some (w, h) =>
      let o2 := if w ≠ [] then { o with width := (parseFloatChars w).getD 0 } else o
      if h ≠ [] then { o2 with height := (parseFloatChars h).getD 0 } else o2
    | none => o
  else
    match parseFloatChars opt with
    | some size => { o with width := size, height := size }
    | none => o

/-- `ParseOptions` (source `imageproxy.ParseOptions`): comma-separated
transformation options with webp content negotiation. -/
def ParseOptions (str : String) (useWebp : Bool) : Options :=
  let o := (splitOnChar ',' (chars str)).foldl parseOptToken emptyOptions
  if useWebp ∧ o.format.length = 0 then { o with format := "webp" } else o

/-- `Options.String` (source `Options.String()`): the canonical serialization
used as the cache-key fragment; the all-zero form `"0x0"` prints as `""`. -/
def optString (o : Options) : String :=
  let buf := goFloatChars o.width ++ chars "x" ++ goFloatChars o.height
    ++ (if o.fit then chars ",fit" else [])
    ++ (if o.rotate ≠ 0 then chars ",r" ++ intToChars o.rotate else [])
    ++ (if o.flipVertical then chars ",fv" else [])
    ++ (if o.flipHorizontal then chars ",fh" else [])
    ++ (if o.quality ≠ 0 then chars ",q" ++ intToChars o.quality else [])
    ++ (if o.format.length > 0 then chars ",f" ++ chars o.format else [])
  if buf = chars "0x0" then "" else ofChars buf

/-- `Options.transform()`: whether geometric transformation applies. -/
def optTransform (o : Options) : Bool :=
  decide (o.width ≠ 0) || decide (o.height ≠ 0) || decide (o.rotate ≠ 0) ||
    o.flipHorizontal || o.flipVertical

theorem mem_intToChars (m : Int) (c : Char) (hc : c ∈ intToChars m) :
    c = '-' ∨ (digitVal c).isSome := by
  unfold intToChars at hc
  by_cases hm : m < 0
  · simp only [hm, if_true] at hc
    rcases List.mem_cons.1 hc with h | h
    · exact Or.inl h
    · exact Or.inr (natToChars_all_digits _ c h)
  · simp only [hm, if_false] at hc
    exact Or.inr (natToChars_all_digits _ c hc)

theorem decPartsToChars_ds_digits (m : Int) (e : Nat) (c : Char)
    (hc : c ∈ (if (natToChars m.natAbs).length ≤ e then
      List.replicate (e + 1 - (natToChars m.natAbs).length) '0' ++ natToChars m.natAbs
      else natToChars m.natAbs)) : (digitVal c).isSome := by
  by_cases hle : (natToChars m.natAbs).length ≤ e
  · rw [if_pos hle] at hc
    rcases List.mem_append.1 hc with h | h
    · rw [List.eq_of_mem_replicate h]
      decide
    · exact natToChars_all_digits _ c h
  · rw [if_neg hle] at hc
    exact natToChars_all_digits _ c hc

theorem mem_decPartsToChars (m : Int) (e : Nat) (c : Char)
    (hc : c ∈ decPartsToChars m e) : c = '-' ∨ c = '.' ∨ (digitVal c).isSome := by
  by_cases he : e = 0
  · subst he
    rw [decPartsToChars_zero] at hc
    rcases mem_intToChars m c hc with h | h
    · exact Or.inl h
    · exact Or.inr (Or.inr h)
  · unfold decPartsToChars at hc
    simp only [he, if_false] at hc
    rcases List.mem_append.1 hc with h1 | h1
    · rcases List.mem_append.1 h1 with h2 | h2
      · by_cases hm : m < 0
        · simp only [hm, if_true] at h2
          simp at h2
          exact Or.inl h2
        · simp only [hm, if_false] at h2
          simp at h2
      · exact Or.inr (Or.inr (decPartsToChars_ds_digits m e c (List.mem_of_mem_take h2)))
    · rcases List.mem_cons.1 h1 with h2 | h2
      · exact Or.inr (Or.inl h2)
      · exact Or.inr (Or.inr (decPartsToChars_ds_digits m e c (List.mem_of_mem_drop h2)))

theorem decPartsToChars_ne_nil (m : Int) (e : Nat) : decPartsToChars m e ≠ [] := by
  by_cases he : e = 0
  · subst he
    rw [decPartsToChars_zero]
    unfold intToChars
    by_cases hm : m < 0
    · simp [hm]
    · simp [hm, natToChars_ne_nil]
  · unfold decPartsToChars
    simp only [he, if_false]
    intro hnil
    have := congrArg List.length hnil
    simp at this

theorem head_decPartsToChars (m : Int) (e : Nat) (c : Char) (cs : List Char)
    (hc : decPartsToChars m e = c :: cs) : c = '-' ∨ (digitVal c).isSome := by
  by_cases he : e = 0
  · subst he
    rw [decPartsToChars_zero] at hc
    unfold intToChars at hc
    by_cases hm : m < 0
    · simp only [hm, if_true] at hc
      exact Or.inl (List.head_eq_of_cons_eq hc.symm)
    · simp only [hm, if_false] at hc
      exact Or.inr (natToChars_all_digits _ c (hc ▸ List.mem_cons_self c cs))
  · unfold decPartsToChars at hc
    simp only [he, if_false] at hc
    by_cases hm : m < 0
    · simp only [hm, if_true] at hc
      simp only [List.cons_append, List.singleton_append] at hc
      exact Or.inl (List.head_eq_of_cons_eq hc.symm)
    · simp only [hm, if_false, List.nil_append] at hc
      set ds := if (natToChars m.natAbs).length ≤ e then
        List.replicate (e + 1 - (natToChars m.natAbs).length) '0' ++ natToChars m.natAbs
        else natToChars m.natAbs with hds
      have hLlen : e + 1 ≤ ds.length := by
        by_cases hle : (natToChars m.natAbs).length ≤ e
        · rw [hds, if_pos hle]
          simp only [List.length_append, List.length_replicate]
          omega
        · rw [hds, if_neg hle]
          omega
      rcases htk : ds.take (ds.length - e) with _ | ⟨d, ds2⟩
      · have := congrArg List.length htk
        rw [List.length_take] at this
        simp at this
        omega
      · rw [htk] at hc
        simp only [List.cons_append] at hc
        have hd : c = d := (List.head_eq_of_cons_eq hc.symm)
        subst hd
        exact Or.inr (decPartsToChars_ds_digits m e c
          (List.mem_of_mem_take (htk ▸ List.mem_cons_self c ds2)))

theorem goFloatChars_eq (q : ℚ) (m : Int) (e : Nat) (h : ratDecParts q = some (m, e)) :
    goFloatChars q = decPartsToChars m e := by
  unfold goFloatChars
  rw [h]

theorem parseOptToken_fit (o : Options) : parseOptToken o (chars "fit") = { o with fit := true } := rfl

theorem parseOptToken_fv (o : Options) :
    parseOptToken o (chars "fv") = { o with flipVertical := true } := rfl

theorem parseOptToken_fh (o : Options) :
    parseOptToken o (chars "fh") = { o with flipHorizontal := true } := rfl

theorem parseOptToken_r (o : Options) (i : Int) :
    parseOptToken o ('r' :: intToChars i) = { o with rotate := i } := by
  have h : parseOptToken o ('r' :: intToChars i) = { o with rotate := atoiC (intToChars i) } := rfl
  rw [h, atoiC_intToChars]

theorem parseOptToken_q (o : Options) (i : Int) :
    parseOptToken o ('q' :: intToChars i) = { o with quality := atoiC (intToChars i) } := rfl

theorem parseOptToken_q_val (o : Options) (i : Int) :
    parseOptToken o ('q' :: intToChars i) = { o with quality := i } := by
  rw [parseOptToken_q, atoiC_intToChars]

theorem parseOptToken_fmt (o : Options) (fm : String)
    (hfm : fm ∈ (["jpeg", "jpg", "png", "gif", "webp"] : List String)) :
    parseOptToken o ('f' :: chars fm) = { o with format := fm } := by
  simp only [List.mem_cons, List.not_mem_nil, or_false] at hfm
  rcases hfm with rfl | rfl | rfl | rfl | rfl
  · rfl
  · rfl
  · rfl
  · rfl
  · rfl

theorem parseOptToken_size (o : Options) (q1 q2 : ℚ) (m1 : Int) (e1 : Nat) (m2 : Int)
    (e2 : Nat) (h1 : ratDecParts q1 = some (m1, e1)) (h2 : ratDecParts q2 = some (m2, e2)) :
    parseOptToken o (goFloatChars q1 ++ 'x' :: goFloatChars q2) =
      { o with width := q1, height := q2 } := by
  have hg1 : goFloatChars q1 = decPartsToChars m1 e1 := goFloatChars_eq q1 m1 e1 h1
  have hg2 : goFloatChars q2 = decPartsToChars m2 e2 := goFloatChars_eq q2 m2 e2 h2
  have hne1 : goFloatChars q1 ≠ [] := by rw [hg1]; exact decPartsToChars_ne_nil m1 e1
  have hne2 : goFloatChars q2 ≠ [] := by rw [hg2]; exact decPartsToChars_ne_nil m2 e2
  have hmem1 : ∀ c ∈ goFloatChars q1, c = '-' ∨ c = '.' ∨ (digitVal c).isSome := by
    intro c hc
    exact mem_decPartsToChars m1 e1 c (hg1 ▸ hc)
  have hnox : 'x' ∉ goFloatChars q1 := by
    intro hx
    rcases hmem1 'x' hx with h | h | h <;> revert h <;> decide
  obtain ⟨c, w1, hcw⟩ := List.exists_cons_of_ne_nil hne1
  have hhead : c = '-' ∨ (digitVal c).isSome :=
    head_decPartsToChars m1 e1 c w1 (hg1 ▸ hcw)
  have hheadr : c ≠ 'r' := by
    rcases hhead with h | h
    · rw [h]; decide
    · intro hcr; rw [hcr] at h; revert h; decide
  have hheadq : c ≠ 'q' := by
    rcases hhead with h | h
    · rw [h]; decide
    · intro hcr; rw [hcr] at h; revert h; decide
  have hheadf : c ≠ 'f' := by
    rcases hhead with h | h
    · rw [h]; decide
    · intro hcr; rw [hcr] at h; revert h; decide
  have hxmem : 'x' ∈ goFloatChars q1 ++ 'x' :: goFloatChars q2 :=
    List.mem_append.2 (Or.inr (List.mem_cons_self _ _))
  have hlen : ¬ ((goFloatChars q1 ++ 'x' :: goFloatChars q2).length = 0) := by
    intro h0
    rw [List.length_eq_zero] at h0
    rw [h0] at hxmem
    simp at hxmem
  have hnfit : goFloatChars q1 ++ 'x' :: goFloatChars q2 ≠ chars "fit" := by
    intro heq
    rw [heq] at hxmem
    revert hxmem
    decide
  have hnfv : goFloatChars q1 ++ 'x' :: goFloatChars q2 ≠ chars "fv" := by
    intro heq
    rw [heq] at hxmem
    revert hxmem
    decide
  have hnfh : goFloatChars q1 ++ 'x' :: goFloatChars q2 ≠ chars "fh" := by
    intro heq
    rw [heq] at hxmem
    revert hxmem
    decide
  have htk : (goFloatChars q1 ++ 'x' :: goFloatChars q2).take 1 = [c] := by
    rw [hcw]
    rfl
  have htkr : ¬ ((goFloatChars q1 ++ 'x' :: goFloatChars q2).take 1 = ['r']) := by
    rw [htk]
    intro hl
    exact hheadr (List.head_eq_of_cons_eq hl)
  have htkq : ¬ ((goFloatChars q1 ++ 'x' :: goFloatChars q2).take 1 = ['q']) := by
    rw [htk]
    intro hl
    exact hheadq (List.head_eq_of_cons_eq hl)
  have htkf : ¬ ((goFloatChars q1 ++ 'x' :: goFloatChars q2).take 1 = ['f']) := by
    rw [htk]
    intro hl
    exact hheadf (List.head_eq_of_cons_eq hl)
  have hcont : containsC 'x' (goFloatChars q1 ++ 'x' :: goFloatChars q2) = true :=
    (containsC_eq_true_iff _ _).2 hxmem
  unfold parseOptToken
  rw [if_neg hlen, if_neg hnfit, if_neg hnfv, if_neg hnfh, if_neg htkr, if_neg htkq,
    if_neg htkf, if_pos hcont, splitFirst_append 'x' _ _ hnox]
  show (let o2 := if goFloatChars q1 ≠ [] then
      { o with width := (parseFloatChars (goFloatChars q1)).getD 0 } else o
    if goFloatChars q2 ≠ [] then
      { o2 with height := (parseFloatChars (goFloatChars q2)).getD 0 } else o2) =
    { o with width := q1, height := q2 }
  rw [if_pos hne1]
  rw [if_pos hne2]
  rw [parseFloatChars_goFloatChars q1 m1 e1 h1, parseFloatChars_goFloatChars q2 m2 e2 h2]
  rfl

/-- Comma-joined suffix tokens as `Options.String` emits them. -/
def glueTok (toks : List (List Char)) : List Char :=
  toks.foldr (fun t acc => ',' :: t ++ acc) []

theorem glueTok_nil : glueTok [] = [] := rfl

theorem glueTok_cons (t : List Char) (ts : List (List Char)) :
    glueTok (t :: ts) = ',' :: t ++ glueTok ts := rfl

theorem glueTok_append (a b : List (List Char)) :
    glueTok (a ++ b) = glueTok a ++ glueTok b := by
  induction a with
  | nil => rfl
  | cons t ts ih => simp [glueTok_cons, ih]

theorem glueTok_single (t : List Char) : glueTok [t] = ',' :: t := by
  simp [glueTok_cons, glueTok_nil]

theorem splitOnChar_glue (toks : List (List Char)) :
    ∀ seg1, ',' ∉ seg1 → (∀ t ∈ toks, ',' ∉ t) →
      splitOnChar ',' (seg1 ++ glueTok toks) = seg1 :: toks := by
  induction toks with
  | nil =>
    intro seg1 h1 _
    rw [glueTok_nil, List.append_nil, splitOnChar_no_sep ',' seg1 h1]
  | cons t ts ih =>
    intro seg1 h1 hts
    rw [glueTok_cons]
    rw [show seg1 ++ (',' :: t ++ glueTok ts) = seg1 ++ ',' :: (t ++ glueTok ts) by simp]
    rw [splitOnChar_append_sep ',' _ _ h1]
    rw [ih t (hts t (List.mem_cons_self t ts)) (fun u hu => hts u (List.mem_cons_of_mem t hu))]

/-- Suffix token list of `Options.String` (one entry per set option). -/
def optTokens (o : Options) : List (List Char) :=
  (if o.fit then [chars "fit"] else []) ++
  ((if o.rotate ≠ 0 then ['r' :: intToChars o.rotate] else []) ++
  ((if o.flipVertical then [chars "fv"] else []) ++
  ((if o.flipHorizontal then [chars "fh"] else []) ++
  ((if o.quality ≠ 0 then ['q' :: intToChars o.quality] else []) ++
  (if o.format.length > 0 then ['f' :: chars o.format] else [])))))

theorem optString_buf (o : Options) :
    goFloatChars o.width ++ chars "x" ++ goFloatChars o.height
      ++ (if o.fit then chars ",fit" else [])
      ++ (if o.rotate ≠ 0 then chars ",r" ++ intToChars o.rotate else [])
      ++ (if o.flipVertical then chars ",fv" else [])
      ++ (if o.flipHorizontal then chars ",fh" else [])
      ++ (if o.quality ≠ 0 then chars ",q" ++ intToChars o.quality else [])
      ++ (if o.format.length > 0 then chars ",f" ++ chars o.format else []) =
    (goFloatChars o.width ++ 'x' :: goFloatChars o.height) ++ glueTok (optTokens o) := by
  have e1 : (if o.fit then chars ",fit" else []) = glueTok (if o.fit then [chars "fit"] else []) := by
    cases o.fit <;> rfl
  have e2 : (if o.rotate ≠ 0 then chars ",r" ++ intToChars o.rotate else []) =
      glueTok (if o.rotate ≠ 0 then ['r' :: intToChars o.rotate] else []) := by
    by_cases h : o.rotate = 0
    · simp [h]
      rfl
    · simp only [h, ne_eq, not_false_iff, if_true]
      rw [glueTok_single]
      rfl
  have e3 : (if o.flipVertical then chars ",fv" else []) =
      glueTok (if o.flipVertical then [chars "fv"] else []) := by
    cases o.flipVertical <;> rfl
  have e4 : (if o.flipHorizontal then chars ",fh" else []) =
      glueTok (if o.flipHorizontal then [chars "fh"] else []) := by
    cases o.flipHorizontal <;> rfl
  have e5 : (if o.quality ≠ 0 then chars ",q" ++ intToChars o.quality else []) =
      glueTok (if o.quality ≠ 0 then ['q' :: intToChars o.quality] else []) := by
    by_cases h : o.quality = 0
    · simp [h]
      rfl
    · simp only [h, ne_eq, not_false_iff, if_true]
      rw [glueTok_single]
      rfl
  have e6 : (if o.format.length > 0 then chars ",f" ++ chars o.format else []) =
      glueTok (if o.format.length > 0 then ['f' :: chars o.format] else []) := by
    by_cases h : o.format.length > 0
    · simp only [h, if_true]
      rw [glueTok_single]
      rfl
    · simp [h]
      rfl
  rw [e1, e2, e3, e4, e5, e6]
  unfold optTokens
  simp only [glueTok_append]
  have hx : chars "x" = ['x'] := rfl
  rw [hx]
  simp [List.append_assoc]

theorem step_fit (b : Bool) (w h : ℚ) (rest : List (List Char)) :
    List.foldl parseOptToken ⟨w, h, false, 0, false, false, 0, ""⟩
        ((if b then [chars "fit"] else []) ++ rest) =
      List.foldl parseOptToken ⟨w, h, b, 0, false, false, 0, ""⟩ rest := by
  cases b
  · simp
  · simp [parseOptToken_fit]

theorem step_rot (i : Int) (w h : ℚ) (ft : Bool) (rest : List (List Char)) :
    List.foldl parseOptToken ⟨w, h, ft, 0, false, false, 0, ""⟩
        ((if i ≠ 0 then ['r' :: intToChars i] else []) ++ rest) =
      List.foldl parseOptToken ⟨w, h, ft, i, false, false, 0, ""⟩ rest := by
  by_cases hi : i = 0
  · subst hi
    simp
  · simp only [hi, ne_eq, not_false_iff, if_true, List.cons_append, List.nil_append,
      List.foldl_cons, parseOptToken_r]

theorem step_fv (b : Bool) (w h : ℚ) (ft : Bool) (rt : Int) (rest : List (List Char)) :
    List.foldl parseOptToken ⟨w, h, ft, rt, false, false, 0, ""⟩
        ((if b then [chars "fv"] else []) ++ rest) =
      List.foldl parseOptToken ⟨w, h, ft, rt, b, false, 0, ""⟩ rest := by
  cases b
  · simp
  · simp [parseOptToken_fv]

theorem step_fh (b : Bool) (w h : ℚ) (ft : Bool) (rt : Int) (fv : Bool)
    (rest : List (List Char)) :
    List.foldl parseOptToken ⟨w, h, ft, rt, fv, false, 0, ""⟩
        ((if b then [chars "fh"] else []) ++ rest) =
      List.foldl parseOptToken ⟨w, h, ft, rt, fv, b, 0, ""⟩ rest := by
  cases b
  · simp
  · simp [parseOptToken_fh]

theorem step_q (i : Int) (w h : ℚ) (ft : Bool) (rt : Int) (fv fh : Bool)
    (rest : List (List Char)) :
    List.foldl parseOptToken ⟨w, h, ft, rt, fv, fh, 0, ""⟩
        ((if i ≠ 0 then ['q' :: intToChars i] else []) ++ rest) =
      List.foldl parseOptToken ⟨w, h, ft, rt, fv, fh, i, ""⟩ rest := by
  by_cases hi : i = 0
  · subst hi
    simp
  · simp only [hi, ne_eq, not_false_iff, if_true, List.cons_append, List.nil_append,
      List.foldl_cons, parseOptToken_q_val]

theorem step_fmt (fm : String) (w h : ℚ) (ft : Bool) (rt : Int) (fv fh : Bool) (qt : Int)
    (hfm : fm ∈ (["", "jpeg", "jpg", "png", "gif", "webp"] : List String)) :
    List.foldl parseOptToken ⟨w, h, ft, rt, fv, fh, qt, ""⟩
        (if fm.length > 0 then ['f' :: chars fm] else []) =
      ⟨w, h, ft, rt, fv, fh, qt, fm⟩ := by
  simp only [List.mem_cons, List.not_mem_nil, or_false] at hfm
  rcases hfm with rfl | rfl | rfl | rfl | rfl | rfl
  · rfl
  · rfl
  · rfl
  · rfl
  · rfl
  · rfl

theorem strLen_zero_eq_empty (s : String) (h : s.length = 0) : s = "" := by
  cases s with
  | mk data =>
    have hd : data.length = 0 := h
    rw [List.length_eq_zero] at hd
    rw [hd]

theorem mem_goFloatChars_of_parts (q : ℚ) (m : Int) (e : Nat)
    (h : ratDecParts q = some (m, e)) (c : Char) (hc : c ∈ goFloatChars q) :
    c = '-' ∨ c = '.' ∨ (digitVal c).isSome := by
  rw [goFloatChars_eq q m e h] at hc
  exact mem_decPartsToChars m e c hc

theorem comma_not_mem_intToChars (i : Int) : ',' ∉ intToChars i := by
  intro hm
  rcases mem_intToChars i ',' hm with h | h <;> revert h <;> decide

theorem goFloatChars_zero_val (q : ℚ) (m : Int) (e : Nat) (h : ratDecParts q = some (m, e))
    (hz : goFloatChars q = ['0']) : q = 0 := by
  have hp := parseFloatChars_goFloatChars q m e h
  rw [hz] at hp
  have hzero : parseFloatChars ['0'] = some 0 := by decide
  rw [hzero] at hp
  exact (Option.some.injEq .. ▸ hp).symm

theorem append_x_three (a r : List Char) (hax : 'x' ∉ a)
    (heq : a ++ 'x' :: r = ['0', 'x', '0']) : a = ['0'] ∧ r = ['0'] := by
  rcases a with _ | ⟨c1, a1⟩
  · simp only [List.nil_append] at heq
    exact absurd (List.head_eq_of_cons_eq heq) (by decide)
  · rcases a1 with _ | ⟨c2, a2⟩
    · simp only [List.cons_append, List.nil_append] at heq
      have h1 : c1 = '0' := List.head_eq_of_cons_eq heq
      have h2 := List.tail_eq_of_cons_eq heq
      have h3 := List.tail_eq_of_cons_eq h2
      exact ⟨by rw [h1], h3⟩
    · simp only [List.cons_append] at heq
      have h2 := List.tail_eq_of_cons_eq heq
      have h3 : c2 = 'x' := List.head_eq_of_cons_eq h2
      exfalso
      apply hax
      rw [← h3]
      exact List.mem_cons_of_mem c1 (List.mem_cons_self c2 a2)

/-- Claim C1, amended: for every Options whose width and height are decimal
float values and whose Format is one of the recognized format names, parsing
the canonical serialization with `useWebp = false` recovers the Options
exactly, and the all-zero Options serialize to `""` (never `"0x0"`). -/
theorem c1_options_roundTrip (o : Options) (mw mh : Int) (ew eh : Nat)
    (hw : ratDecParts o.width = some (mw, ew))
    (hh : ratDecParts o.height = some (mh, eh))
    (hfmt : o.format ∈ (["", "jpeg", "jpg", "png", "gif", "webp"] : List String)) :
    ParseOptions (optString o) false = o ∧ optString emptyOptions = "" := by
  obtain ⟨w, h, ft, rt, fv, fh, qt, fm⟩ := o
  dsimp only at hw hh hfmt
  refine ⟨?_, by decide⟩
  have hseg : ',' ∉ goFloatChars w ++ 'x' :: goFloatChars h := by
    intro hm
    rcases List.mem_append.1 hm with h1 | h1
    · rcases mem_goFloatChars_of_parts w mw ew hw ',' h1 with h2 | h2 | h2 <;>
        revert h2 <;> decide
    · rcases List.mem_cons.1 h1 with h2 | h2
      · revert h2; decide
      · rcases mem_goFloatChars_of_parts h mh eh hh ',' h2 with h3 | h3 | h3 <;>
          revert h3 <;> decide
  have hTok : ∀ t ∈ optTokens ⟨w, h, ft, rt, fv, fh, qt, fm⟩, ',' ∉ t := by
    intro t ht
    unfold optTokens at ht
    dsimp only at ht
    rcases List.mem_append.1 ht with h1 | ht
    · cases ft
      · simp at h1
      · simp at h1
        subst h1
        decide
    rcases List.mem_append.1 ht with h1 | ht
    · by_cases hr : rt = 0
      · simp [hr] at h1
      · simp [hr] at h1
        subst h1
        intro hm
        rcases List.mem_cons.1 hm with hx | hx
        · revert hx; decide
        · exact comma_not_mem_intToChars rt hx
    rcases List.mem_append.1 ht with h1 | ht
    · cases fv
      · simp at h1
      · simp at h1
        subst h1
        decide
    rcases List.mem_append.1 ht with h1 | ht
    · cases fh
      · simp at h1
      · simp at h1
        subst h1
        decide
    rcases List.mem_append.1 ht with h1 | ht
    · by_cases hq : qt = 0
      · simp [hq] at h1
      · simp [hq] at h1
        subst h1
        intro hm
        rcases List.mem_cons.1 hm with hx | hx
        · revert hx; decide
        · exact comma_not_mem_intToChars qt hx
    by_cases hfl : fm.length > 0
    · simp [hfl] at ht
      subst ht
      simp only [List.mem_cons, List.not_mem_nil, or_false] at hfmt
      rcases hfmt with rfl | rfl | rfl | rfl | rfl | rfl <;> decide
    · simp [hfl] at ht
  unfold optString
  dsimp only
  rw [optString_buf ⟨w, h, ft, rt, fv, fh, qt, fm⟩]
  by_cases hb : (goFloatChars w ++ 'x' :: goFloatChars h) ++
      glueTok (optTokens ⟨w, h, ft, rt, fv, fh, qt, fm⟩) = chars "0x0"
  · rw [if_pos hb]
    have hx1 : 'x' ∉ goFloatChars w := by
      intro hm
      rcases mem_goFloatChars_of_parts w mw ew hw 'x' hm with h1 | h1 | h1 <;>
        revert h1 <;> decide
    have hbl : goFloatChars w ++ 'x' :: (goFloatChars h ++
        glueTok (optTokens ⟨w, h, ft, rt, fv, fh, qt, fm⟩)) = ['0', 'x', '0'] := by
      rw [show (['0', 'x', '0'] : List Char) = chars "0x0" from rfl, ← hb]
      simp
    obtain ⟨hgw0, hr⟩ := append_x_three _ _ hx1 hbl
    obtain ⟨c3, b1, hgh⟩ := List.exists_cons_of_ne_nil (show goFloatChars h ≠ [] by
      rw [goFloatChars_eq h mh eh hh]; exact decPartsToChars_ne_nil mh eh)
    rw [hgh] at hr
    simp only [List.cons_append] at hr
    have hc3 : c3 = '0' := List.head_eq_of_cons_eq hr
    have htl := List.tail_eq_of_cons_eq hr
    obtain ⟨hb1, hglue⟩ := List.append_eq_nil.1 htl
    have hgh0 : goFloatChars h = ['0'] := by rw [hgh, hc3, hb1]
    have htoksnil : optTokens ⟨w, h, ft, rt, fv, fh, qt, fm⟩ = [] := by
      rcases hts : optTokens ⟨w, h, ft, rt, fv, fh, qt, fm⟩ with _ | ⟨t, ts⟩
      · rfl
      · rw [hts, glueTok_cons] at hglue
        simp at hglue
    unfold optTokens at htoksnil
    dsimp only at htoksnil
    simp only [List.append_eq_nil] at htoksnil
    obtain ⟨t1, t2, t3, t4, t5, t6⟩ := htoksnil
    have hft : ft = false := by
      cases ft
      · rfl
      · simp at t1
    have hrt : rt = 0 := by
      by_cases hr0 : rt = 0
      · exact hr0
      · simp [hr0] at t2
    have hfv : fv = false := by
      cases fv
      · rfl
      · simp at t3
    have hfh : fh = false := by
      cases fh
      · rfl
      · simp at t4
    have hqt : qt = 0 := by
      by_cases hq0 : qt = 0
      · exact hq0
      · simp [hq0] at t5
    have hfm0 : fm = "" := by
      by_cases hfl : fm.length > 0
      · simp [hfl] at t6
      · exact strLen_zero_eq_empty fm (by omega)
    have hw0 : w = 0 := goFloatChars_zero_val w mw ew hw hgw0
    have hh0 : h = 0 := goFloatChars_zero_val h mh eh hh hgh0
    subst hft hrt hfv hfh hqt hfm0 hw0 hh0
    decide
  · rw [if_neg hb]
    unfold ParseOptions
    simp only [false_and, if_false]
    rw [chars_ofChars]
    rw [splitOnChar_glue _ _ hseg hTok]
    rw [List.foldl_cons]
    rw [parseOptToken_size emptyOptions w h mw ew mh eh hw hh]
    rw [show ({ emptyOptions with width := w, height := h } : Options) =
      (⟨w, h, false, 0, false, false, 0, ""⟩ : Options) from rfl]
    unfold optTokens
    dsimp only
    rw [step_fit, step_rot, step_fv, step_fh, step_q, step_fmt fm w h ft rt fv fh qt hfmt]
    simp

/-- Claim C1, counterexample to the claim as stated: the Options value with
Format "it" (and every other field zero) serializes to `"0x0,fit"`, which
parses back as `{Fit: true}`, not as the original value. -/
theorem c1_counterexample :
    ParseOptions (optString ⟨0, 0, false, 0, false, false, 0, "it"⟩) false ≠
      (⟨0, 0, false, 0, false, false, 0, "it"⟩ : Options) := by decide

theorem c1_witness :
    ParseOptions (optString ⟨1, 2, true, 90, true, true, 70, "png"⟩) false =
      (⟨1, 2, true, 90, true, true, 70, "png"⟩ : Options) ∧ optString emptyOptions = "" :=
  c1_options_roundTrip ⟨1, 2, true, 90, true, true, 70, "png"⟩ 1 2 0 0 (by decide) (by decide)
    (by decide)

/-! ### ImageWithMeta origin-cache entry (src/src/imageproxy/image_utils.go) -/

/-- Origin-cache entry: cache-related headers plus raw image bytes, bytes
modelled as `List Nat` values below 256. -/
structure ImageWithMeta where
  headers : List Nat
  image : List Nat
deriving DecidableEq, Repr

/-- Big-endian bytes of `uint16(n)` (`binary.BigEndian.PutUint16`). -/
def toBE16 (n : Nat) : List Nat := [n % 65536 / 256, n % 256]

/-- `binary.BigEndian.Uint16` of the first two bytes. -/
def fromBE16 (bs : List Nat) : Nat :=
  match bs with
  | a :: b :: _ => a * 256 + b
  | _ => 0

/-- `ImageWithMeta.Bytes()`: BE16 header length, then headers, then image. -/
def ImageWithMeta.Bytes (m : ImageWithMeta) : List Nat :=
  toBE16 m.headers.length ++ m.headers ++ m.image

/-- `NewImageWithMetaFromCache`: parse a serialized origin-cache entry. -/
def NewImageWithMetaFromCache (data : List Nat) : ImageWithMeta :=
  let headLength := fromBE16 (data.take 2)
  { headers := (data.drop 2).take headLength, image := (data.drop 2).drop headLength }

/-- Claim C9: serializing an `ImageWithMeta` whose header block is shorter
than 2^16 bytes and parsing it back recovers the headers and image exactly;
the serialized form is `BE16(len(Headers)) ++ Headers ++ Image` by
definition of `ImageWithMeta.Bytes`. -/
theorem c9_imageWithMeta_roundTrip (m : ImageWithMeta) (h : m.headers.length < 65536) :
    NewImageWithMetaFromCache (ImageWithMeta.Bytes m) = m := by
  obtain ⟨hd, im⟩ := m
  dsimp only at h
  unfold ImageWithMeta.Bytes NewImageWithMetaFromCache toBE16
  dsimp only
  rw [List.append_assoc]
  have htake : ([hd.length % 65536 / 256, hd.length % 256] ++ (hd ++ im)).take 2 =
      [hd.length % 65536 / 256, hd.length % 256] := rfl
  have hdrop : ([hd.length % 65536 / 256, hd.length % 256] ++ (hd ++ im)).drop 2 = hd ++ im := rfl
  rw [htake, hdrop]
  have hlen : fromBE16 [hd.length % 65536 / 256, hd.length % 256] = hd.length := by
    have hv : fromBE16 [hd.length % 65536 / 256, hd.length % 256] =
        hd.length % 65536 / 256 * 256 + hd.length % 256 := rfl
    rw [hv]
    omega
  rw [hlen]
  rw [List.take_left, List.drop_left]

theorem c9_witness :
    ([1, 2] : List Nat).length < 65536 ∧
      NewImageWithMetaFromCache (ImageWithMeta.Bytes ⟨[1, 2], [3]⟩) = ⟨[1, 2], [3]⟩ :=
  ⟨by decide, c9_imageWithMeta_roundTrip ⟨[1, 2], [3]⟩ (by decide)⟩

/-! ### Aligned expiry (src/unnamed/part_000, package media_utils) -/

/-- `GenerateAlignedExpire`: expiry aligned to common boundaries with a
per-key offset. `crcKey` is the value of `crc32.ChecksumIEEE(key)` (external
hash, abstracted to its value) and `now` the value of `time.Now().Unix()`;
Go `/` and `%` on int64 are `Int.tdiv` / `Int.tmod`. -/
def GenerateAlignedExpire (crcKey : Nat) (now : Int) (expiresSeconds : Int) : Int :=
  let expiresSeconds := if expiresSeconds < 3600 * 24 then 3600 * 24 else expiresSeconds
  let offset := (Int.ofNat crcKey).tmod expiresSeconds
  let alignedExpire := ((now + expiresSeconds - 1).tdiv expiresSeconds) * expiresSeconds + offset
  if alignedExpire - now < expiresSeconds then alignedExpire + expiresSeconds else alignedExpire

/-- The formula stated by claim C7, written from the claim's words. -/
def alignedExpireSpec (crcKey : Nat) (now L : Int) : Int :=
  let lifted := max L 86400
  let v := ((now + lifted - 1).tdiv lifted) * lifted + (Int.ofNat crcKey).tmod lifted
  if v - now < lifted then v + lifted else v

/-- Claim C7: `GenerateAlignedExpire(key, L)` equals the claim's formula with
the lifetime floored to 86400, and the returned expiry is always at least a
full (floored) lifetime after `now`. -/
theorem c7_alignedExpire (crcKey : Nat) (now L : Int) (hnow : 0 ≤ now) :
    GenerateAlignedExpire crcKey now L = alignedExpireSpec crcKey now L ∧
      max L 86400 ≤ GenerateAlignedExpire crcKey now L - now := by
  have hmax : (if L < 3600 * 24 then (3600 * 24 : Int) else L) = max L 86400 := by
    rcases le_or_lt 86400 L with hL | hL
    · rw [if_neg (by omega), max_eq_left hL]
    · rw [if_pos (by omega), max_eq_right (by omega)]
      norm_num
  have heq : GenerateAlignedExpire crcKey now L = alignedExpireSpec crcKey now L := by
    unfold GenerateAlignedExpire alignedExpireSpec
    rw [hmax]
  refine ⟨heq, ?_⟩
  rw [heq]
  unfold alignedExpireSpec
  have hE : (0 : Int) < max L 86400 := lt_of_lt_of_le (by norm_num) (le_max_right L 86400)
  have hoff : 0 ≤ (Int.ofNat crcKey).tmod (max L 86400) :=
    Int.tmod_nonneg (max L 86400) (Int.ofNat_nonneg crcKey)
  have harg : 0 ≤ now + max L 86400 - 1 := by omega
  have hmul : now ≤ ((now + max L 86400 - 1).tdiv (max L 86400)) * max L 86400 := by
    rw [Int.tdiv_eq_ediv harg (le_of_lt hE)]
    have h1 := Int.emod_lt_of_pos (now + max L 86400 - 1) hE
    have h3 := Int.emod_nonneg (now + max L 86400 - 1) (ne_of_gt hE)
    have h2 := Int.ediv_add_emod (now + max L 86400 - 1) (max L 86400)
    rw [mul_comm]
    linarith
  have main : ∀ A off E : Int, now ≤ A → 0 ≤ off →
      E ≤ (if A + off - now < E then A + off + E else A + off) - now := by
    intro A off E hA hoffA
    by_cases hcase : A + off - now < E
    · rw [if_pos hcase]
      omega
    · rw [if_neg hcase]
      omega
  exact main (((now + max L 86400 - 1).tdiv (max L 86400)) * max L 86400)
    ((Int.ofNat crcKey).tmod (max L 86400)) (max L 86400) hmul hoff

theorem c7_witness :
    GenerateAlignedExpire 7 0 0 = alignedExpireSpec 7 0 0 ∧
      max 0 86400 ≤ GenerateAlignedExpire 7 0 0 - 0 :=
  c7_alignedExpire 7 0 0 (by decide)

/-! ### Access control (src/src/media_utils/aws_helper.go, Proxy.allowed) -/

/-- `FileContentType` (image_utils.go): format name to Content-Type, `""` for
unknown formats. -/
def FileContentType (format : String) : String :=
  if format = "jpeg" then "image/jpeg"
  else if format = "jpg" then "image/jpeg"
  else if format = "gif" then "image/gif"
  else if format = "png" then "image/png"
  else if format = "webp" then "image/webp"
  else ""

/-- `validHost`: exact match or `*.suffix` wildcard match against the list. -/
def validHost (hosts : List String) (host : String) : Bool :=
  hosts.any (fun h =>
    host == h ||
      ((chars "*.").isPrefixOf (chars h) && ((chars h).drop 2).isSuffixOf (chars host)))

/-- `validReferrer`: the Referer header run through `url.Parse` (abstracted to
the parsed host; `none` models a parse error) and checked with `validHost`. -/
def validReferrer (hosts : List String) (referrerHost : Option String) : Bool :=
  match referrerHost with
  | none => false
  | some h => validHost hosts h

/-- `Proxy.allowed`: format whitelist, referrer check, host whitelist, then
the signature result is returned as a boolean next to a `nil` error.
`validSign` stands for the value of `validSignature(r)`. -/
def allowed (whitelist referrers : List String) (optFormat : String)
    (referrerHost : Option String) (urlHost : String) (validSign : Bool) :
    Option String × Bool :=
  let contentType := FileContentType optFormat
  if contentType.length = 0 ∧ optFormat.length > 0 then (some "Invalid file format", false)
  else if referrers.length > 0 ∧ validReferrer referrers referrerHost = false then
    (some "request does not contain an allowed referrer", false)
  else if whitelist.length > 0 ∧ validHost whitelist urlHost = false then
    (some "request host not allowed", false)
  else (none, validSign)

/-- `serveImage` status dispatch: 404 when `NewRequest` fails, 403 when
`allowed` returns an error, else the backend response status. -/
def serveImageStatus (newRequestOk : Bool) (allowedResult : Option String × Bool)
    (respStatus : Nat) : Nat :=
  if newRequestOk = false then 404
  else
    match allowedResult.1 with
    | some _ => 403
    | none => respStatus

/-- Claim C8: when the format, referrer and host checks pass, `Proxy.allowed`
returns a `nil` error for every signature outcome; the signature result only
feeds the returned boolean and the HTTP status is the backend status
unchanged. -/
theorem c8_signature_nonfatal (whitelist referrers : List String) (optFormat : String)
    (referrerHost : Option String) (urlHost : String) (s : Bool) (respStatus : Nat)
    (hfmt : ¬ ((FileContentType optFormat).length = 0 ∧ optFormat.length > 0))
    (href : referrers ≠ [] → validReferrer referrers referrerHost = true)
    (hhost : whitelist ≠ [] → validHost whitelist urlHost = true) :
    (allowed whitelist referrers optFormat referrerHost urlHost s).1 = none ∧
      (allowed whitelist referrers optFormat referrerHost urlHost s).2 = s ∧
      serveImageStatus true (allowed whitelist referrers optFormat referrerHost urlHost s)
        respStatus = respStatus := by
  have hc2 : ¬ (referrers.length > 0 ∧ validReferrer referrers referrerHost = false) := by
    rintro ⟨hl, hv⟩
    have hne : referrers ≠ [] := by
      intro hnil
      rw [hnil] at hl
      simp at hl
    rw [href hne] at hv
    cases hv
  have hc3 : ¬ (whitelist.length > 0 ∧ validHost whitelist urlHost = false) := by
    rintro ⟨hl, hv⟩
    have hne : whitelist ≠ [] := by
      intro hnil
      rw [hnil] at hl
      simp at hl
    rw [hhost hne] at hv
    cases hv
  have hres : allowed whitelist referrers optFormat referrerHost urlHost s = (none, s) := by
    unfold allowed
    rw [if_neg hfmt, if_neg hc2, if_neg hc3]
  rw [hres]
  exact ⟨rfl, rfl, rfl⟩

theorem c8_witness :
    (allowed ["a.com"] [] "png" none "a.com" false).1 = none ∧
      (allowed ["a.com"] [] "png" none "a.com" false).2 = false ∧
      serveImageStatus true (allowed ["a.com"] [] "png" none "a.com" false) 200 = 200 :=
  c8_signature_nonfatal ["a.com"] [] "png" none "a.com" false 200 (by decide)
    (by intro h2; exact absurd rfl h2) (by intro h2; decide)

/-! ### 304 handling (src/src/media_utils/aws_helper.go, check304 and
writeResponseToWriter) -/

/-- `http.Header.Get`: first value stored under the (canonical) key, `""`
when the header is absent. -/
def hGet (headers : List (String × String)) (key : String) : String :=
  match headers.find? (fun p => p.1 == key) with
  | some p => p.2
  | none => ""

/-- The weekday names accepted by layout element `Mon`. -/
def weekdayNames : List (List Char) :=
  [chars "Mon", chars "Tue", chars "Wed", chars "Thu", chars "Fri", chars "Sat", chars "Sun"]

/-- Month number for a three-letter month name, as layout element `Jan`. -/
def monthNum (m : List Char) : Option Nat :=
  if m = chars "Jan" then some 1
  else if m = chars "Feb" then some 2
  else if m = chars "Mar" then some 3
  else if m = chars "Apr" then some 4
  else if m = chars "May" then some 5
  else if m = chars "Jun" then some 6
  else if m = chars "Jul" then some 7
  else if m = chars "Aug" then some 8
  else if m = chars "Sep" then some 9
  else if m = chars "Oct" then some 10
  else if m = chars "Nov" then some 11
  else if m = chars "Dec" then some 12
  else none

/-- Two decimal digits (zero-padded layout elements `02`, `15`, `04`, `05`). -/
def digit2 (cs : List Char) : Option (Nat × List Char) :=
  match cs with
  | a :: b :: rest =>
    match digitVal a, digitVal b with
    | some x, some y => some (x * 10 + y, rest)
    | _, _ => none
  | _ => none

/-- Four decimal digits (layout element `2006`). -/
def digit4 (cs : List Char) : Option (Nat × List Char) :=
  match digit2 cs with
  | some (x, rest) =>
    match digit2 rest with
    | some (y, rest2) => some (x * 100 + y, rest2)
    | none => none
  | none => none

/-- Gregorian leap year, as Go `time.isLeap`. -/
def isLeapYear (y : Nat) : Bool :=
  if (y % 4 = 0 ∧ ¬ y % 100 = 0) ∨ y % 400 = 0 then true else false

/-- Days in a month, used by Go `time.Parse` to range-check the day. -/
def daysIn (month year : Nat) : Nat :=
  if month = 2 then (if isLeapYear year then 29 else 28)
  else if month = 4 ∨ month = 6 ∨ month = 9 ∨ month = 11 then 30
  else 31

/-- An uppercase ASCII letter, for the zone abbreviation. -/
def isUpper (c : Char) : Bool := decide ('A' ≤ c ∧ c ≤ 'Z')

/-- The calendar fields `time.Parse(time.RFC1123, _)` extracts. -/
structure GoTime where
  year : Nat
  month : Nat
  day : Nat
  hour : Nat
  minute : Nat
  second : Nat
deriving DecidableEq, Repr

/-- Mixed-radix key ordering `GoTime` values chronologically: with the
parser's field bounds it is the lexicographic order on the fields, which is
how `time.Time.Before` compares two times of equal zone offset. -/
def GoTime.key (t : GoTime) : Nat :=
  ((((t.year * 13 + t.month) * 32 + t.day) * 24 + t.hour) * 60 + t.minute) * 60 + t.second

/-- `time.Parse(time.RFC1123, s)` against layout `Mon, 02 Jan 2006 15:04:05
MST`, field by field with Go's range validation. Go gives an unrecognized
zone abbreviation offset zero and applies no offset before comparison here,
so the calendar fields alone model the parsed instant. -/
def parseRFC1123C (cs : List Char) : Option GoTime :=
  match cs with
  | d1 :: d2 :: d3 :: ',' :: ' ' :: rest =>
    if [d1, d2, d3] ∈ weekdayNames then
      match digit2 rest with
      | some (day, ' ' :: m1 :: m2 :: m3 :: ' ' :: rest2) =>
        match monthNum [m1, m2, m3] with
        | some month =>
          match digit4 rest2 with
          | some (year, ' ' :: rest3) =>
            match digit2 rest3 with
            | some (hour, ':' :: rest4) =>
              match digit2 rest4 with
              | some (minute, ':' :: rest5) =>
                match digit2 rest5 with
                | some (second, ' ' :: zone) =>
                  if zone ≠ [] ∧ zone.all isUpper ∧
                      1 ≤ day ∧ day ≤ daysIn month year ∧
                      hour ≤ 23 ∧ minute ≤ 59 ∧ second ≤ 59 then
                    some ⟨year, month, day, hour, minute, second⟩
                  else none
                | _ => none
              | _ => none
            | _ => none
          | _ => none
        | none => none
      | _ => none
    else none
  | _ => none

/-- `time.Time.Before` on two parsed RFC1123 times (equal zone offsets):
strictly earlier. -/
def timeBefore (a b : GoTime) : Bool := decide (a.key < b.key)

/-- `check304`: ETag match first, then both dates must parse and
`lastModified.Before(ifModSince)` must hold strictly. -/
def check304 (reqHeaders respHeaders : List (String × String)) : Bool :=
  let etag := hGet respHeaders "Etag"
  if etag ≠ "" ∧ etag = hGet reqHeaders "If-None-Match" then true
  else
    match parseRFC1123C (chars (hGet respHeaders "Last-Modified")) with
    | none => false
    | some lastModified =>
      match parseRFC1123C (chars (hGet reqHeaders "If-Modified-Since")) with
      | none => false
      | some ifModSince => timeBefore lastModified ifModSince

/-- The 304 condition as claim C5 words it: If-Modified-Since greater than
OR EQUAL to Last-Modified. Written from the claim for comparison with
`check304`. -/
def check304Spec (reqHeaders respHeaders : List (String × String)) : Bool :=
  let etag := hGet respHeaders "Etag"
  if etag ≠ "" ∧ etag = hGet reqHeaders "If-None-Match" then true
  else
    match parseRFC1123C (chars (hGet respHeaders "Last-Modified")) with
    | none => false
    | some lastModified =>
      match parseRFC1123C (chars (hGet reqHeaders "If-Modified-Since")) with
      | none => false
      | some ifModSince => decide (lastModified.key ≤ ifModSince.key)

/-- What `writeResponseToWriter` emits: status code, whether `Vary: Accept`
was added, whether a body was copied. -/
structure ResponseOut where
  status : Nat
  varyAccept : Bool
  bodyWritten : Bool
deriving DecidableEq, Repr

/-- `writeResponseToWriter`: on `check304` respond 304 with `Vary: Accept`
and return before the body; otherwise forward the backend status and body
(also with `Vary: Accept`). -/
def writeResponseToWriter (reqHeaders respHeaders : List (String × String))
    (respStatus : Nat) : ResponseOut :=
  if check304 reqHeaders respHeaders then
    { status := 304, varyAccept := true, bodyWritten := false }
  else
    { status := respStatus, varyAccept := true, bodyWritten := true }

/-- Claim C5 (amended): the handler responds 304 with `Vary: Accept` and no
body exactly when `check304` holds, and `check304` holds exactly when the
inbound If-None-Match equals the non-empty ETag, or both dates parse as
RFC1123 and If-Modified-Since is STRICTLY after Last-Modified; equality of
the two dates does not produce a 304. -/
theorem c5_304_condition (reqH respH : List (String × String)) (respStatus : Nat) :
    (writeResponseToWriter reqH respH respStatus = ⟨304, true, false⟩ ↔
        check304 reqH respH = true) ∧
      (check304 reqH respH = true ↔
        (hGet respH "Etag" ≠ "" ∧ hGet respH "Etag" = hGet reqH "If-None-Match") ∨
          ∃ lm ims,
            parseRFC1123C (chars (hGet respH "Last-Modified")) = some lm ∧
              parseRFC1123C (chars (hGet reqH "If-Modified-Since")) = some ims ∧
              GoTime.key lm < GoTime.key ims) := by
  constructor
  · constructor
    · intro hw
      by_cases h : check304 reqH respH = true
      · exact h
      · exfalso
        unfold writeResponseToWriter at hw
        rw [if_neg h] at hw
        simp at hw
    · intro h
      unfold writeResponseToWriter
      rw [if_pos h]
  · by_cases he : hGet respH "Etag" ≠ "" ∧ hGet respH "Etag" = hGet reqH "If-None-Match"
    · simp only [check304]
      rw [if_pos he]
      exact iff_of_true rfl (Or.inl he)
    · simp only [check304]
      rw [if_neg he]
      cases hl : parseRFC1123C (chars (hGet respH "Last-Modified")) with
      | none => simp [he]
      | some lm =>
        cases hi : parseRFC1123C (chars (hGet reqH "If-Modified-Since")) with
        | none => simp [he]
        | some ims => simp [he, timeBefore]

/-- Claim C5 counterexample: with Last-Modified equal to If-Modified-Since
the claim predicate (≥) fires but the code answers no 304 and forwards the
backend status with a body. -/
theorem c5_counterexample :
    check304Spec [("If-Modified-Since", "Sun, 01 Jan 2017 00:00:00 GMT")]
        [("Last-Modified", "Sun, 01 Jan 2017 00:00:00 GMT")] = true ∧
      check304 [("If-Modified-Since", "Sun, 01 Jan 2017 00:00:00 GMT")]
        [("Last-Modified", "Sun, 01 Jan 2017 00:00:00 GMT")] = false ∧
      writeResponseToWriter [("If-Modified-Since", "Sun, 01 Jan 2017 00:00:00 GMT")]
        [("Last-Modified", "Sun, 01 Jan 2017 00:00:00 GMT")] 200 = ⟨200, true, true⟩ := by
  decide

/-! ### Format handling (src/src/imageproxy/transform.go, Transform and
DetectFormat) -/

/-- `Transform`, dimensionless: the external image codecs are parameters
(`decode` = `image.Decode` returning the decoded image and its format name,
`gifProcess` = `GifProcess` re-encoding a GIF frame by frame through `fn`,
the three encoders; `none` models a Go error) and only the byte/format flow
of the source is kept. `transformImage` is the frame transformation passed
through. -/
def Transform {Image : Type} (decode : List Nat → Option (Image × String))
    (gifProcess : List Nat → (Image → Image) → Option (List Nat))
    (webpEncode : Image → Int → Option (List Nat))
    (jpegEncode : Image → Int → Option (List Nat))
    (pngEncode : Image → Option (List Nat))
    (transformImage : Image → Options → Image)
    (img : List Nat) (opt : Options) : Option (List Nat × String) :=
  match decode img with
  | none => none
  | some (m, format) =>
    if optTransform opt = false ∧
        (opt.format = "" ∨ opt.format = format ∨ "gif" = format) then
      some (img, format)
    else
      let format := if 0 < opt.format.length ∧ format ≠ "gif" then opt.format else format
      if format = "gif" then
        match gifProcess img
            (fun i => if optTransform opt then transformImage i opt else i) with
        | none => none
        | some buf => some (buf, format)
      else if format = "webp" then
        let quality := if opt.quality = 0 then 80 else opt.quality
        let m := if optTransform opt then transformImage m opt else m
        match webpEncode m quality with
        | none => none
        | some buf => some (buf, format)
      else if format = "jpg" ∨ format = "jpeg" then
        let quality := if opt.quality = 0 then 80 else opt.quality
        let m := if optTransform opt then transformImage m opt else m
        match jpegEncode m quality with
        | none => none
        | some buf => some (buf, "jpeg")
      else if format = "png" then
        let m := if optTransform opt then transformImage m opt else m
        match pngEncode m with
        | none => none
        | some buf => some (buf, format)
      else none

/-- `DetectFormat`, dimensionless, with the same codec parameters; the early
return hands back `nil` bytes, modelled as `[]`. -/
def DetectFormat {Image : Type} (decode : List Nat → Option (Image × String))
    (gifProcess : List Nat → (Image → Image) → Option (List Nat))
    (webpEncode : Image → Int → Option (List Nat))
    (jpegEncode : Image → Int → Option (List Nat))
    (pngEncode : Image → Option (List Nat))
    (img : List Nat) (opt : Options) : Option (List Nat × String) :=
  match decode img with
  | none => none
  | some (m, format) =>
    if opt.format = "" ∨ format = opt.format ∨ format = "gif" then
      some ([], format)
    else
      let format := opt.format
      if format = "gif" then
        match gifProcess img (fun i => i) with
        | none => none
        | some buf => some (buf, format)
      else if format = "webp" then
        let quality := if opt.quality = 0 then 80 else opt.quality
        match webpEncode m quality with
        | none => none
        | some buf => some (buf, format)
      else if format = "jpg" ∨ format = "jpeg" then
        let quality := if opt.quality = 0 then 80 else opt.quality
        match jpegEncode m quality with
        | none => none
        | some buf => some (buf, "jpeg")
      else if format = "png" then
        match pngEncode m with
        | none => none
        | some buf => some (buf, format)
      else none

/-- Claim C4: when the input decodes as a GIF, every successful output of
`Transform` and of `DetectFormat` is still in format "gif", whatever
(different) format the Options request: conversion away from GIF is silently
ignored. -/
theorem c4_gif_preserved {Image : Type} (decode : List Nat → Option (Image × String))
    (gifProcess : List Nat → (Image → Image) → Option (List Nat))
    (webpEncode : Image → Int → Option (List Nat))
    (jpegEncode : Image → Int → Option (List Nat))
    (pngEncode : Image → Option (List Nat))
    (transformImage : Image → Options → Image)
    (img : List Nat) (opt : Options) (m : Image)
    (hdec : decode img = some (m, "gif")) :
    (Transform decode gifProcess webpEncode jpegEncode pngEncode transformImage
        img opt).all (fun r => r.2 == "gif") = true ∧
      (DetectFormat decode gifProcess webpEncode jpegEncode pngEncode
        img opt).all (fun r => r.2 == "gif") = true := by
  constructor
  · unfold Transform
    rw [hdec]
    dsimp only
    by_cases ht : optTransform opt = false ∧
        (opt.format = "" ∨ opt.format = "gif" ∨ "gif" = "gif")
    · rw [if_pos ht]
      rfl
    · rw [if_neg ht]
      have hfmt : (if 0 < opt.format.length ∧ "gif" ≠ "gif" then opt.format else "gif") =
          "gif" := by
        rw [if_neg]
        rintro ⟨-, hbad⟩
        exact hbad rfl
      simp only [hfmt]
      rw [if_pos trivial]
      cases gifProcess img (fun i => if optTransform opt then transformImage i opt else i) with
      | none => rfl
      | some buf => rfl
  · unfold DetectFormat
    rw [hdec]
    dsimp only
    rw [if_pos (Or.inr (Or.inr rfl))]
    rfl

theorem c4_witness :
    ((fun (_ : List Nat) => some (0, "gif")) [0] = some ((0 : Nat), "gif")) ∧
      (Transform (fun _ => some (0, "gif")) (fun b _ => some b) (fun _ _ => some [])
          (fun _ _ => some []) (fun _ => some []) (fun i _ => i) [0]
          ⟨0, 0, false, 0, false, false, 0, "png"⟩).all (fun r => r.2 == "gif") = true ∧
        (DetectFormat (fun _ => some (0, "gif")) (fun b _ => some b) (fun _ _ => some [])
          (fun _ _ => some []) (fun _ => some []) [0]
          ⟨0, 0, false, 0, false, false, 0, "png"⟩).all (fun r => r.2 == "gif") = true :=
  ⟨rfl, c4_gif_preserved (fun _ => some (0, "gif")) (fun b _ => some b) (fun _ _ => some [])
    (fun _ _ => some []) (fun _ => some []) (fun i _ => i) [0]
    ⟨0, 0, false, 0, false, false, 0, "png"⟩ 0 rfl⟩

/-! ### URL signing (src/unnamed/part_000: SimpleToken, SimpleTimeToStr,
SimpleSignUrlWithTime, SimpleVerify). Bytes are `List Nat` values below
256; HMAC-SHA256 is abstracted to a function `mac` from the concatenated
written message to its 32-byte digest; `config.MagicNum` is the parameter
`magic`. -/

/-- The alphabet of `base64.RawURLEncoding`. -/
def b64Alphabet : List Char :=
  chars "ABCDEFGHIJKLMNOPQRSTUVWXYZabcdefghijklmnopqrstuvwxyz0123456789-_"

/-- Character for a sextet. -/
def b64Char (n : Nat) : Char := b64Alphabet.getD n 'A'

def b64ValAux (cs : List Char) (c : Char) (i : Nat) : Option Nat :=
  match cs with
  | [] => none
  | a :: rest => if a = c then some i else b64ValAux rest c (i + 1)

/-- Sextet for a character, `none` when outside the alphabet. -/
def b64Val (c : Char) : Option Nat := b64ValAux b64Alphabet c 0

/-- Unpadded base64url encoding of a byte string (groups of 3 bytes to 4
characters, 2 to 3, 1 to 2). -/
def b64EncodeBytes : List Nat → List Char
  | b1 :: b2 :: b3 :: rest =>
    let n := b1 * 65536 + b2 * 256 + b3
    b64Char (n / 262144) :: b64Char (n / 4096 % 64) :: b64Char (n / 64 % 64) ::
      b64Char (n % 64) :: b64EncodeBytes rest
  | [b1, b2] =>
    let n := b1 * 1024 + b2 * 4
    [b64Char (n / 4096), b64Char (n / 64 % 64), b64Char (n % 64)]
  | [b1] =>
    let n := b1 * 16
    [b64Char (n / 64), b64Char (n % 64)]
  | [] => []

/-- `base64.RawURLEncoding.DecodeString`: groups of 4 characters to 3 bytes,
3 to 2, 2 to 1; a single leftover character or a character outside the
alphabet is an error (Go's default decoder ignores trailing bits). -/
def b64DecodeChars : List Char → Option (List Nat)
  | c1 :: c2 :: c3 :: c4 :: rest =>
    match b64Val c1, b64Val c2, b64Val c3, b64Val c4 with
    | some v1, some v2, some v3, some v4 =>
      match b64DecodeChars rest with
      | some bs =>
        let n := ((v1 * 64 + v2) * 64 + v3) * 64 + v4
        some (n / 65536 :: n / 256 % 256 :: n % 256 :: bs)
      | none => none
    | _, _, _, _ => none
  | [c1, c2, c3] =>
    match b64Val c1, b64Val c2, b64Val c3 with
    | some v1, some v2, some v3 =>
      let n := (v1 * 64 + v2) * 64 + v3
      some [n / 1024, n / 4 % 256]
    | _, _, _ => none
  | [c1, c2] =>
    match b64Val c1, b64Val c2 with
    | some v1, some v2 => some [(v1 * 64 + v2) / 16]
    | _, _ => none
  | [_] => none
  | [] => some []

theorem b64Val_b64Char (n : Nat) (h : n < 64) : b64Val (b64Char n) = some n := by
  have hall : ∀ i : Fin 64, b64Val (b64Char i.val) = some i.val := by decide
  exact hall ⟨n, h⟩

theorem b64_roundTrip (bs : List Nat) (h : ∀ b ∈ bs, b < 256) :
    b64DecodeChars (b64EncodeBytes bs) = some bs :=
  match bs with
  | [] => rfl
  | [b1] => by
    have hb1 : b1 < 256 := h b1 (by simp)
    show b64DecodeChars [b64Char (b1 * 16 / 64), b64Char (b1 * 16 % 64)] = some [b1]
    have e1 : b64Val (b64Char (b1 * 16 / 64)) = some (b1 * 16 / 64) :=
      b64Val_b64Char _ (by omega)
    have e2 : b64Val (b64Char (b1 * 16 % 64)) = some (b1 * 16 % 64) :=
      b64Val_b64Char _ (by omega)
    simp only [b64DecodeChars, e1, e2]
    have hv : (b1 * 16 / 64 * 64 + b1 * 16 % 64) / 16 = b1 := by omega
    rw [hv]
  | [b1, b2] => by
    have hb1 : b1 < 256 := h b1 (by simp)
    have hb2 : b2 < 256 := h b2 (by simp)
    show b64DecodeChars [b64Char ((b1 * 1024 + b2 * 4) / 4096),
        b64Char ((b1 * 1024 + b2 * 4) / 64 % 64), b64Char ((b1 * 1024 + b2 * 4) % 64)] =
      some [b1, b2]
    have e1 : b64Val (b64Char ((b1 * 1024 + b2 * 4) / 4096)) =
        some ((b1 * 1024 + b2 * 4) / 4096) := b64Val_b64Char _ (by omega)
    have e2 : b64Val (b64Char ((b1 * 1024 + b2 * 4) / 64 % 64)) =
        some ((b1 * 1024 + b2 * 4) / 64 % 64) := b64Val_b64Char _ (by omega)
    have e3 : b64Val (b64Char ((b1 * 1024 + b2 * 4) % 64)) =
        some ((b1 * 1024 + b2 * 4) % 64) := b64Val_b64Char _ (by omega)
    simp only [b64DecodeChars, e1, e2, e3]
    have hn : ((b1 * 1024 + b2 * 4) / 4096 * 64 + (b1 * 1024 + b2 * 4) / 64 % 64) * 64 +
        (b1 * 1024 + b2 * 4) % 64 = b1 * 1024 + b2 * 4 := by omega
    rw [hn]
    have h1 : (b1 * 1024 + b2 * 4) / 1024 = b1 := by omega
    have h2 : (b1 * 1024 + b2 * 4) / 4 % 256 = b2 := by omega
    rw [h1, h2]
  | b1 :: b2 :: b3 :: rest => by
    have hb1 : b1 < 256 := h b1 (by simp)
    have hb2 : b2 < 256 := h b2 (by simp)
    have hb3 : b3 < 256 := h b3 (by simp)
    have ih := b64_roundTrip rest (fun b hb => h b (by simp [hb]))
    show b64DecodeChars (b64Char ((b1 * 65536 + b2 * 256 + b3) / 262144) ::
        b64Char ((b1 * 65536 + b2 * 256 + b3) / 4096 % 64) ::
        b64Char ((b1 * 65536 + b2 * 256 + b3) / 64 % 64) ::
        b64Char ((b1 * 65536 + b2 * 256 + b3) % 64) :: b64EncodeBytes rest) =
      some (b1 :: b2 :: b3 :: rest)
    have e1 : b64Val (b64Char ((b1 * 65536 + b2 * 256 + b3) / 262144)) =
        some ((b1 * 65536 + b2 * 256 + b3) / 262144) := b64Val_b64Char _ (by omega)
    have e2 : b64Val (b64Char ((b1 * 65536 + b2 * 256 + b3) / 4096 % 64)) =
        some ((b1 * 65536 + b2 * 256 + b3) / 4096 % 64) := b64Val_b64Char _ (by omega)
    have e3 : b64Val (b64Char ((b1 * 65536 + b2 * 256 + b3) / 64 % 64)) =
        some ((b1 * 65536 + b2 * 256 + b3) / 64 % 64) := b64Val_b64Char _ (by omega)
    have e4 : b64Val (b64Char ((b1 * 65536 + b2 * 256 + b3) % 64)) =
        some ((b1 * 65536 + b2 * 256 + b3) % 64) := b64Val_b64Char _ (by omega)
    simp only [b64DecodeChars, e1, e2, e3, e4, ih]
    have hn : (((b1 * 65536 + b2 * 256 + b3) / 262144 * 64 +
        (b1 * 65536 + b2 * 256 + b3) / 4096 % 64) * 64 +
        (b1 * 65536 + b2 * 256 + b3) / 64 % 64) * 64 +
        (b1 * 65536 + b2 * 256 + b3) % 64 = b1 * 65536 + b2 * 256 + b3 := by omega
    rw [hn]
    have h1 : (b1 * 65536 + b2 * 256 + b3) / 65536 = b1 := by omega
    have h2 : (b1 * 65536 + b2 * 256 + b3) / 256 % 256 = b2 := by omega
    have h3 : (b1 * 65536 + b2 * 256 + b3) % 256 = b3 := by omega
    rw [h1, h2, h3]

/-- Big-endian bytes of `uint32(n)` (`binary.BigEndian.PutUint32`). -/
def toBE32 (n : Nat) : List Nat :=
  [n / 16777216 % 256, n / 65536 % 256, n / 256 % 256, n % 256]

/-- `binary.BigEndian.Uint32` of a four-byte slice. -/
def fromBE32 (bs : List Nat) : Nat :=
  match bs with
  | [a, b, c, d] => ((a * 256 + b) * 256 + c) * 256 + d
  | _ => 0

theorem fromBE32_toBE32 (n : Nat) (h : n < 4294967296) : fromBE32 (toBE32 n) = n := by
  simp only [toBE32, fromBE32]
  omega

theorem toBE32_lt (n : Nat) : ∀ b ∈ toBE32 n, b < 256 := by
  intro b hb
  simp only [toBE32, List.mem_cons, List.not_mem_nil, or_false] at hb
  rcases hb with rfl | rfl | rfl | rfl <;> omega

/-- `strings.HasPrefix(path, "/")` guard stripping one leading slash. -/
def stripSlash (p : List Char) : List Char :=
  if (chars "/").isPrefixOf p then p.drop 1 else p

/-- `SimpleToken`: HMAC over `path` then `"?ts="+ts`, `"&oe="+oe` (or
`"?oe="+oe` when ts is empty); the sequential `mac.Write` calls feed `mac`
the concatenation. -/
def SimpleToken (mac : List Char → List Nat) (path ts oe : List Char) : List Nat :=
  if 0 < ts.length then mac (path ++ chars "?ts=" ++ ts ++ chars "&oe=" ++ oe)
  else mac (path ++ chars "?oe=" ++ oe)

/-- `SimpleTimeToStr`: the four big-endian bytes of `uint32(time ^ MagicNum)`
and their base64url encoding. -/
def SimpleTimeToStr (magic : Nat) (t : Nat) : List Char × List Nat :=
  let expires := toBE32 ((t ^^^ magic) % 4294967296)
  (b64EncodeBytes expires, expires)

/-- The `tk` token `SimpleSignUrlWithTime` embeds in the signed URL:
base64url of HMAC followed by the four expiry bytes. -/
def simpleSignToken (mac : List Char → List Nat) (magic : Nat) (path ts : List Char)
    (t : Nat) : List Char :=
  b64EncodeBytes
    (SimpleToken mac (stripSlash path) ts (SimpleTimeToStr magic t).1 ++
      (SimpleTimeToStr magic t).2)

/-- `SimpleSignUrlWithTime`: the signed URL `path?ts=<ts>&tk=<token>` (or
`path?tk=<token>` without ts). -/
def SimpleSignUrlWithTime (mac : List Char → List Nat) (magic : Nat)
    (path ts : List Char) (t : Nat) : List Char :=
  if 0 < ts.length then
    stripSlash path ++ chars "?ts=" ++ ts ++ chars "&tk=" ++ simpleSignToken mac magic path ts t
  else stripSlash path ++ chars "?tk=" ++ simpleSignToken mac magic path ts t

/-- `SimpleVerify`: decode the token, recover the expiry from the last four
bytes (xor `MagicNum`), reject expired tokens when `checkExpire`, recompute
the HMAC from path, ts and the re-encoded expiry bytes and compare. `now` is
`time.Now().Unix()`. -/
def SimpleVerify (mac : List Char → List Nat) (magic : Nat) (now : Int)
    (path ts token : List Char) (checkExpire : Bool) : Bool :=
  let path := stripSlash path
  match b64DecodeChars token with
  | none => false
  | some tokenBytes =>
    if tokenBytes.length < 5 then false
    else
      let last4 := tokenBytes.drop (tokenBytes.length - 4)
      let expireTime := fromBE32 last4 ^^^ magic % 4294967296
      if checkExpire && decide ((expireTime : Int) < now) then false
      else
        let oe := b64EncodeBytes last4
        let want := SimpleToken mac path ts oe
        tokenBytes.take (tokenBytes.length - 4) == want

/-- Claim C6: the token minted by `SimpleSignUrlWithTime` (the `tk` value of
the returned URL) verifies against the same path and ts while the expiry is
not in the past, and is rejected once `now` is past the expiry, with
`checkExpire` true. `mac` is any 32-byte digest function and `magic` the
`config.MagicNum` value, below 2^32 like the expiry. -/
theorem c6_sign_verify (mac : List Char → List Nat) (magic t : Nat) (now : Int)
    (path ts : List Char)
    (hmac32 : ∀ s, (mac s).length = 32)
    (hmacByte : ∀ s, ∀ b ∈ mac s, b < 256)
    (ht : t < 4294967296) (hmagic : magic < 4294967296) :
    (SimpleSignUrlWithTime mac magic path ts t =
        if 0 < ts.length then
          stripSlash path ++ chars "?ts=" ++ ts ++ chars "&tk=" ++
            simpleSignToken mac magic path ts t
        else stripSlash path ++ chars "?tk=" ++ simpleSignToken mac magic path ts t) ∧
      (now ≤ (t : Int) →
        SimpleVerify mac magic now path ts (simpleSignToken mac magic path ts t) true =
          true) ∧
      ((t : Int) < now →
        SimpleVerify mac magic now path ts (simpleSignToken mac magic path ts t) true =
          false) := by
  have h32 : (4294967296 : Nat) = 2 ^ 32 := by norm_num
  have hxor_lt : t ^^^ magic < 4294967296 := by
    rw [h32]
    exact Nat.xor_lt_two_pow (by rw [← h32]; exact ht) (by rw [← h32]; exact hmagic)
  have hmod : (t ^^^ magic) % 4294967296 = t ^^^ magic := Nat.mod_eq_of_lt hxor_lt
  set want := SimpleToken mac (stripSlash path) ts (SimpleTimeToStr magic t).1 with hwant
  set expires := toBE32 ((t ^^^ magic) % 4294967296) with hexp
  have hlenw : want.length = 32 := by
    rw [hwant]
    unfold SimpleToken
    by_cases hl : 0 < ts.length
    · rw [if_pos hl]
      exact hmac32 _
    · rw [if_neg hl]
      exact hmac32 _
  have hbytes : ∀ b ∈ want ++ expires, b < 256 := by
    intro b hb
    rcases List.mem_append.mp hb with h1 | h2
    · rw [hwant] at h1
      unfold SimpleToken at h1
      by_cases hl : 0 < ts.length
      · rw [if_pos hl] at h1
        exact hmacByte _ b h1
      · rw [if_neg hl] at h1
        exact hmacByte _ b h1
    · rw [hexp] at h2
      exact toBE32_lt _ b h2
  have hdec : b64DecodeChars (simpleSignToken mac magic path ts t) = some (want ++ expires) :=
    b64_roundTrip _ hbytes
  have hlenwe : (want ++ expires).length = 36 := by
    rw [List.length_append, hlenw, hexp]
    rfl
  have hdrop : (want ++ expires).drop ((want ++ expires).length - 4) = expires := by
    rw [hlenwe]
    show (want ++ expires).drop 32 = expires
    rw [← hlenw]
    exact List.drop_left want expires
  have htake : (want ++ expires).take ((want ++ expires).length - 4) = want := by
    rw [hlenwe]
    show (want ++ expires).take 32 = want
    rw [← hlenw]
    exact List.take_left want expires
  have hfrom : fromBE32 expires = t ^^^ magic := by
    rw [hexp, hmod]
    exact fromBE32_toBE32 _ hxor_lt
  have hexpTime : fromBE32 expires ^^^ magic % 4294967296 = t := by
    rw [hfrom, Nat.mod_eq_of_lt hmagic, Nat.xor_assoc, Nat.xor_self]
    simp
  have hoe : (SimpleTimeToStr magic t).1 = b64EncodeBytes expires := by
    rw [hexp]
    rfl
  have hkey : SimpleVerify mac magic now path ts (simpleSignToken mac magic path ts t) true =
      if decide ((t : Int) < now) then false else true := by
    unfold SimpleVerify
    simp only [hdec]
    rw [if_neg (by rw [hlenwe]; omega)]
    rw [hdrop, htake, hexpTime, ← hoe, ← hwant]
    simp
  refine ⟨rfl, ?_, ?_⟩
  · intro hle
    have hnot : ¬ ((t : Int) < now) := not_lt.mpr hle
    rw [hkey]
    simp [hnot]
  · intro hlt
    rw [hkey]
    simp [hlt]

theorem c6_witness :
    (SimpleSignUrlWithTime (fun _ => List.replicate 32 0) 5 (chars "/a") (chars "2") 1 =
        if 0 < (chars "2").length then
          stripSlash (chars "/a") ++ chars "?ts=" ++ chars "2" ++ chars "&tk=" ++
            simpleSignToken (fun _ => List.replicate 32 0) 5 (chars "/a") (chars "2") 1
        else
          stripSlash (chars "/a") ++ chars "?tk=" ++
            simpleSignToken (fun _ => List.replicate 32 0) 5 (chars "/a") (chars "2") 1) ∧
      ((0 : Int) ≤ ((1 : Nat) : Int) →
        SimpleVerify (fun _ => List.replicate 32 0) 5 0 (chars "/a") (chars "2")
          (simpleSignToken (fun _ => List.replicate 32 0) 5 (chars "/a") (chars "2") 1)
          true = true) ∧
      (((1 : Nat) : Int) < 0 →
        SimpleVerify (fun _ => List.replicate 32 0) 5 0 (chars "/a") (chars "2")
          (simpleSignToken (fun _ => List.replicate 32 0) 5 (chars "/a") (chars "2") 1)
          true = false) :=
  c6_sign_verify (fun _ => List.replicate 32 0) 5 1 0 (chars "/a") (chars "2")
    (fun _ => by simp) (fun s b hb => by simp at hb; omega) (by norm_num) (by norm_num)

/-! ### Resizing (src/src/imageproxy/transform.go: resizeParams and
transformImage). Image dimensions only; `float64` arithmetic is modelled
exactly over ℚ and Go `int(f)` truncates toward zero. `imaging.Fit` and
`imaging.Resize` are external (dimension functions taken as parameters);
`imaging.Thumbnail(m, w, h, f)` returns exactly a w by h image. -/

/-- Go `int(f)`: truncation of a float toward zero. -/
def truncQ (q : ℚ) : Int := q.num.tdiv (q.den : Int)

/-- One dimension after percentage expansion: values strictly between 0 and
1 are fractions of the image dimension, negatives collapse to 0, the rest
truncate. -/
def expandDim (img : Int) (q : ℚ) : Int :=
  if 0 < q ∧ q < 1 then truncQ ((img : ℚ) * q)
  else if q < 0 then 0
  else truncQ q

/-- `resizeParams`: target width, height and whether to resize at all. -/
def resizeParams (imgW imgH : Int) (opt : Options) : Int × Int × Bool :=
  let w := expandDim imgW opt.width
  let h := expandDim imgH opt.height
  let p :=
    if 0 < w ∧ 0 < h ∧ opt.fit = false ∧ (imgW < w ∨ imgH < h) then
      let minScale := min ((imgW : ℚ) / (w : ℚ)) ((imgH : ℚ) / (h : ℚ))
      (truncQ ((w : ℚ) * minScale), truncQ ((h : ℚ) * minScale))
    else
      (if imgW < w then imgW else w, if imgH < h then imgH else h)
  if (p.1 = imgW ∨ p.1 = 0) ∧ (p.2 = imgH ∨ p.2 = 0) then (0, 0, false)
  else (p.1, p.2, true)

/-- `transformImage`, dimensions only: resize per `resizeParams` (Fit and
the zero-dimension Resize delegate to the external dimension functions,
Thumbnail yields the requested size), flips keep dimensions, rotation by 90
or 270 swaps them. -/
def transformImage (fitDims resizeDims : Int → Int → Int → Int → Int × Int)
    (imgW imgH : Int) (opt : Options) : Int × Int :=
  let r := resizeParams imgW imgH opt
  let d :=
    if r.2.2 then
      if opt.fit then fitDims imgW imgH r.1 r.2.1
      else if r.1 = 0 ∨ r.2.1 = 0 then resizeDims imgW imgH r.1 r.2.1
      else (r.1, r.2.1)
    else (imgW, imgH)
  if opt.rotate = 90 ∨ opt.rotate = 270 then (d.2, d.1) else d

theorem truncQ_floor (q : ℚ) (h : 0 ≤ q) : truncQ q = ⌊q⌋ := by
  unfold truncQ
  rw [Int.tdiv_eq_ediv (Rat.num_nonneg.mpr h) (by positivity)]
  exact Rat.floor_def.symm

theorem truncQ_intCast (n : Int) : truncQ ((n : ℚ)) = n := by
  unfold truncQ
  rw [Rat.num_intCast, Rat.den_intCast]
  simp

theorem truncQ_le (q : ℚ) (n : Int) (h0 : 0 ≤ q) (h : q ≤ (n : ℚ)) : truncQ q ≤ n := by
  rw [truncQ_floor q h0]
  calc ⌊q⌋ ≤ ⌊((n : ℚ))⌋ := Int.floor_le_floor h
  _ = n := Int.floor_intCast n

theorem truncQ_nonneg (q : ℚ) (h : 0 ≤ q) : 0 ≤ truncQ q := by
  rw [truncQ_floor q h]
  exact Int.floor_nonneg.mpr h

theorem resizeParams_eval (imgW imgH : Int) (opt : Options)
    (hC : 0 < expandDim imgW opt.width ∧ 0 < expandDim imgH opt.height ∧
      opt.fit = false ∧
      (imgW < expandDim imgW opt.width ∨ imgH < expandDim imgH opt.height)) :
    resizeParams imgW imgH opt =
      (let W := expandDim imgW opt.width
       let H := expandDim imgH opt.height
       let ms := min ((imgW : ℚ) / (W : ℚ)) ((imgH : ℚ) / (H : ℚ))
       let a := truncQ ((W : ℚ) * ms)
       let b := truncQ ((H : ℚ) * ms)
       if (a = imgW ∨ a = 0) ∧ (b = imgH ∨ b = 0) then (0, 0, false) else (a, b, true)) := by
  simp only [resizeParams]
  rw [if_pos hC]

theorem resizeParams_id (imgW imgH : Int) (opt : Options)
    (hweq : expandDim imgW opt.width = imgW) (hheq : expandDim imgH opt.height = imgH) :
    resizeParams imgW imgH opt = (0, 0, false) := by
  have hC : ¬ (0 < imgW ∧ 0 < imgH ∧ opt.fit = false ∧ (imgW < imgW ∨ imgH < imgH)) := by
    rintro ⟨-, -, -, hlt | hlt⟩ <;> exact absurd hlt (lt_irrefl _)
  simp only [resizeParams, hweq, hheq]
  rw [if_neg hC]
  dsimp only
  rw [if_neg (lt_irrefl imgW), if_neg (lt_irrefl imgH)]
  rw [if_pos ⟨Or.inl rfl, Or.inl rfl⟩]

theorem resizeParams_char (imgW imgH : Int) (opt : Options)
    (hW : 0 < imgW) (hH : 0 < imgH) (hfit : opt.fit = false)
    (hw0 : 0 < expandDim imgW opt.width) (hh0 : 0 < expandDim imgH opt.height)
    (hw : imgW ≤ expandDim imgW opt.width) (hh : imgH ≤ expandDim imgH opt.height) :
    resizeParams imgW imgH opt = (0, 0, false) ∨
      ∃ p1 p2, resizeParams imgW imgH opt = (p1, p2, true) ∧ 0 < p1 ∧ 0 < p2 ∧
        p1 ≤ imgW ∧ p2 ≤ imgH ∧
        (imgW < expandDim imgW opt.width ∨ imgH < expandDim imgH opt.height) := by
  by_cases hC : imgW < expandDim imgW opt.width ∨ imgH < expandDim imgH opt.height
  · have heval := resizeParams_eval imgW imgH opt ⟨hw0, hh0, hfit, hC⟩
    dsimp only at heval
    set W := expandDim imgW opt.width with hWdef
    set H := expandDim imgH opt.height with hHdef
    set ms := min ((imgW : ℚ) / (W : ℚ)) ((imgH : ℚ) / (H : ℚ)) with hmsdef
    set a := truncQ ((W : ℚ) * ms) with hadef
    set b := truncQ ((H : ℚ) * ms) with hbdef
    have hWq : (0 : ℚ) < (W : ℚ) := by exact_mod_cast hw0
    have hHq : (0 : ℚ) < (H : ℚ) := by exact_mod_cast hh0
    have hWne : ((W : Int) : ℚ) ≠ 0 := ne_of_gt hWq
    have hHne : ((H : Int) : ℚ) ≠ 0 := ne_of_gt hHq
    have hiWq : (0 : ℚ) ≤ ((imgW : Int) : ℚ) := by exact_mod_cast le_of_lt hW
    have hiHq : (0 : ℚ) ≤ ((imgH : Int) : ℚ) := by exact_mod_cast le_of_lt hH
    have hms_nn : 0 ≤ ms := by
      rw [hmsdef]
      exact le_min (div_nonneg hiWq (le_of_lt hWq)) (div_nonneg hiHq (le_of_lt hHq))
    have ha_nn : 0 ≤ a := truncQ_nonneg _ (mul_nonneg (le_of_lt hWq) hms_nn)
    have hb_nn : 0 ≤ b := truncQ_nonneg _ (mul_nonneg (le_of_lt hHq) hms_nn)
    have ha_le : a ≤ imgW := by
      apply truncQ_le _ _ (mul_nonneg (le_of_lt hWq) hms_nn)
      calc (W : ℚ) * ms ≤ (W : ℚ) * ((imgW : ℚ) / (W : ℚ)) := by
            apply mul_le_mul_of_nonneg_left _ (le_of_lt hWq)
            rw [hmsdef]
            exact min_le_left _ _
      _ = ((imgW : Int) : ℚ) := by rw [mul_comm]; exact div_mul_cancel₀ _ hWne
    have hb_le : b ≤ imgH := by
      apply truncQ_le _ _ (mul_nonneg (le_of_lt hHq) hms_nn)
      calc (H : ℚ) * ms ≤ (H : ℚ) * ((imgH : ℚ) / (H : ℚ)) := by
            apply mul_le_mul_of_nonneg_left _ (le_of_lt hHq)
            rw [hmsdef]
            exact min_le_right _ _
      _ = ((imgH : Int) : ℚ) := by rw [mul_comm]; exact div_mul_cancel₀ _ hHne
    by_cases hskip : (a = imgW ∨ a = 0) ∧ (b = imgH ∨ b = 0)
    · rw [if_pos hskip] at heval
      exact Or.inl heval
    · rw [if_neg hskip] at heval
      right
      rcases min_choice ((imgW : ℚ) / (W : ℚ)) ((imgH : ℚ) / (H : ℚ)) with hmc | hmc
    
      · have ha_eq : a = imgW := by
          rw [hadef, hmsdef, hmc, mul_comm, div_mul_cancel₀ _ hWne]
          exact truncQ_intCast imgW
        have h2 : ¬ (b = imgH ∨ b = 0) := fun hb => hskip ⟨Or.inl ha_eq, hb⟩
        rw [not_or] at h2
        exact ⟨a, b, heval, by omega, by omega, ha_le, hb_le, hC⟩
      · have hb_eq : b = imgH := by
          rw [hbdef, hmsdef, hmc, mul_comm, div_mul_cancel₀ _ hHne]
          exact truncQ_intCast imgH
        have h2 : ¬ (a = imgW ∨ a = 0) := fun ha => hskip ⟨ha, Or.inl hb_eq⟩
        rw [not_or] at h2
        exact ⟨a, b, heval, by omega, by omega, ha_le, hb_le, hC⟩
  · left
    push_neg at hC
    exact resizeParams_id imgW imgH opt (le_antisymm hC.1 hw) (le_antisymm hC.2 hh)

/-- Claim C3 (amended): with Fit false, positive expanded request dimensions
at least the source dimensions, the output of `transformImage` never exceeds
the source dimensions (swapped when rotating by 90 or 270); the output is
exactly the source size when the expanded request equals the source size and
no dimension-swapping rotation is asked. The original claim's exact-size
statement fails when a requested dimension strictly exceeds the source:
aspect-preserving scaling shrinks the other dimension. -/
theorem c3_no_upscale (fitDims resizeDims : Int → Int → Int → Int → Int × Int)
    (imgW imgH : Int) (opt : Options)
    (hW : 0 < imgW) (hH : 0 < imgH) (hfit : opt.fit = false)
    (hw0 : 0 < expandDim imgW opt.width) (hh0 : 0 < expandDim imgH opt.height)
    (hw : imgW ≤ expandDim imgW opt.width) (hh : imgH ≤ expandDim imgH opt.height) :
    ((opt.rotate = 90 ∨ opt.rotate = 270) →
        (transformImage fitDims resizeDims imgW imgH opt).1 ≤ imgH ∧
          (transformImage fitDims resizeDims imgW imgH opt).2 ≤ imgW) ∧
      (¬ (opt.rotate = 90 ∨ opt.rotate = 270) →
        (transformImage fitDims resizeDims imgW imgH opt).1 ≤ imgW ∧
          (transformImage fitDims resizeDims imgW imgH opt).2 ≤ imgH) ∧
      (expandDim imgW opt.width = imgW → expandDim imgH opt.height = imgH →
        ¬ (opt.rotate = 90 ∨ opt.rotate = 270) →
        transformImage fitDims resizeDims imgW imgH opt = (imgW, imgH)) := by
  rcases resizeParams_char imgW imgH opt hW hH hfit hw0 hh0 hw hh with
    hrp | ⟨p1, p2, hrp, hp1, hp2, hb1, hb2, hCC⟩
  · have hd : transformImage fitDims resizeDims imgW imgH opt =
        if opt.rotate = 90 ∨ opt.rotate = 270 then (imgH, imgW) else (imgW, imgH) := by
      unfold transformImage
      rw [hrp]
      simp
    refine ⟨?_, ?_, ?_⟩
    · intro hrot
      rw [hd, if_pos hrot]
      exact ⟨le_refl _, le_refl _⟩
    · intro hnrot
      rw [hd, if_neg hnrot]
      exact ⟨le_refl _, le_refl _⟩
    · intro _ _ hnrot
      rw [hd, if_neg hnrot]
  · have hd : transformImage fitDims resizeDims imgW imgH opt =
        if opt.rotate = 90 ∨ opt.rotate = 270 then (p2, p1) else (p1, p2) := by
      have hzero : ¬ (p1 = 0 ∨ p2 = 0) := by rintro (h | h) <;> omega
      unfold transformImage
      rw [hrp]
      simp [hfit, hzero]
    refine ⟨?_, ?_, ?_⟩
    · intro hrot
      rw [hd, if_pos hrot]
      exact ⟨hb2, hb1⟩
    · intro hnrot
      rw [hd, if_neg hnrot]
      exact ⟨hb1, hb2⟩
    · intro hweq hheq hnrot
      exfalso
      rw [hweq, hheq] at hCC
      rcases hCC with h | h <;> omega

/-- Claim C3 counterexample: a 100 by 50 source with requested 200 by 200,
Fit false, no rotation: both requested dimensions exceed the source, the
aspect-preserving scale is min(100/200, 50/200) = 1/4, and the output is
50 by 50, not the claimed 100 by 50. -/
theorem c3_counterexample :
    transformImage (fun _ _ c d => (c, d)) (fun _ _ c d => (c, d)) 100 50
        ⟨200, 200, false, 0, false, false, 0, ""⟩ = (50, 50) ∧
      ¬ ((50 : Int), (50 : Int)) = ((100 : Int), (50 : Int)) := by
  constructor
  · have hexp200 : ∀ img : Int, expandDim img (200 : ℚ) = 200 := by
      intro img
      unfold expandDim
      rw [if_neg (by norm_num), if_neg (by norm_num)]
      rw [show ((200 : ℚ)) = ((200 : Int) : ℚ) by norm_num, truncQ_intCast]
    have heval := resizeParams_eval 100 50 ⟨200, 200, false, 0, false, false, 0, ""⟩
      (by
        refine ⟨?_, ?_, rfl, ?_⟩
        · show (0 : Int) < expandDim 100 (200 : ℚ)
          rw [hexp200]
          norm_num
        · show (0 : Int) < expandDim 50 (200 : ℚ)
          rw [hexp200]
          norm_num
        · left
          show (100 : Int) < expandDim 100 (200 : ℚ)
          rw [hexp200]
          norm_num)
    dsimp only at heval
    simp only [hexp200] at heval
    have hms : min (((100 : Int) : ℚ) / ((200 : Int) : ℚ)) (((50 : Int) : ℚ) / ((200 : Int) : ℚ)) =
        (1 / 4 : ℚ) := by
      rw [min_eq_right (by push_cast; norm_num)]
      push_cast
      norm_num
    have hprod : truncQ (((200 : Int) : ℚ) * (1 / 4 : ℚ)) = 50 := by
      rw [show ((200 : Int) : ℚ) * (1 / 4 : ℚ) = ((50 : Int) : ℚ) by push_cast; norm_num,
        truncQ_intCast]
    simp only [hms, hprod] at heval
    rw [if_neg (by norm_num)] at heval
    unfold transformImage
    rw [heval]
    norm_num
  · decide

theorem c3_witness :
    (((⟨100, 50, false, 0, false, false, 0, ""⟩ : Options).rotate = 90 ∨
        (⟨100, 50, false, 0, false, false, 0, ""⟩ : Options).rotate = 270) →
      (transformImage (fun _ _ c d => (c, d)) (fun _ _ c d => (c, d)) 100 50
          ⟨100, 50, false, 0, false, false, 0, ""⟩).1 ≤ 50 ∧
        (transformImage (fun _ _ c d => (c, d)) (fun _ _ c d => (c, d)) 100 50
          ⟨100, 50, false, 0, false, false, 0, ""⟩).2 ≤ 100) ∧
      (¬ ((⟨100, 50, false, 0, false, false, 0, ""⟩ : Options).rotate = 90 ∨
          (⟨100, 50, false, 0, false, false, 0, ""⟩ : Options).rotate = 270) →
        (transformImage (fun _ _ c d => (c, d)) (fun _ _ c d => (c, d)) 100 50
            ⟨100, 50, false, 0, false, false, 0, ""⟩).1 ≤ 100 ∧
          (transformImage (fun _ _ c d => (c, d)) (fun _ _ c d => (c, d)) 100 50
            ⟨100, 50, false, 0, false, false, 0, ""⟩).2 ≤ 50) ∧
      (expandDim 100 (⟨100, 50, false, 0, false, false, 0, ""⟩ : Options).width = 100 →
        expandDim 50 (⟨100, 50, false, 0, false, false, 0, ""⟩ : Options).height = 50 →
        ¬ ((⟨100, 50, false, 0, false, false, 0, ""⟩ : Options).rotate = 90 ∨
          (⟨100, 50, false, 0, false, false, 0, ""⟩ : Options).rotate = 270) →
        transformImage (fun _ _ c d => (c, d)) (fun _ _ c d => (c, d)) 100 50
          ⟨100, 50, false, 0, false, false, 0, ""⟩ = (100, 50)) :=
  c3_no_upscale (fun _ _ c d => (c, d)) (fun _ _ c d => (c, d)) 100 50
    ⟨100, 50, false, 0, false, false, 0, ""⟩ (by decide) (by decide) rfl (by decide)
    (by decide) (by decide) (by decide)

/-! ### Request normalization (src/unnamed/part_001 NewRequest and
src/src/cache/httpcache.go CacheKeyForURL). `url.Parse` (with the
`parseURL` slash repair) and `ResolveReference` are external, taken as
parameters `gp` and `rr`; a `GoURL` keeps the fields the code touches and
`URL.String` is modelled on them (the fragment characters produced here
escape to themselves). -/

/-- The `url.URL` fields used by the proxy. -/
structure GoURL where
  scheme : List Char
  host : List Char
  path : List Char
  rawQuery : List Char
  fragment : List Char
deriving DecidableEq, Repr

/-- `url.URL.IsAbs`: a scheme is present. -/
def GoURL.IsAbs (u : GoURL) : Bool := decide (u.scheme ≠ [])

/-- `url.URL.String` over the modelled fields. -/
def urlString (u : GoURL) : List Char :=
  (if u.scheme ≠ [] then u.scheme ++ [':'] else []) ++
    (if u.host ≠ [] then '/' :: '/' :: u.host else []) ++ u.path ++
    (if u.rawQuery ≠ [] then '?' :: u.rawQuery else []) ++
    (if u.fragment ≠ [] then '#' :: u.fragment else [])

/-- `cache.CacheKeyForURL`: the URL string with every `#` replaced by `_`. -/
def CacheKeyForURL (u : GoURL) : List Char :=
  (urlString u).map (fun c => if c = '#' then '_' else c)

/-- `HasWebpSupport`: the Accept header contains "image/webp". -/
def HasWebpSupport (accept : List Char) : Bool :=
  decide (List.IsInfix (chars "image/webp") accept)

/-- Hexadecimal digit value, as `unhex` in net/url. -/
def hexVal (c : Char) : Option Nat :=
  match digitVal c with
  | some d => some d
  | none =>
    if c = 'a' ∨ c = 'A' then some 10
    else if c = 'b' ∨ c = 'B' then some 11
    else if c = 'c' ∨ c = 'C' then some 12
    else if c = 'd' ∨ c = 'D' then some 13
    else if c = 'e' ∨ c = 'E' then some 14
    else if c = 'f' ∨ c = 'F' then some 15
    else none

/-- `url.QueryUnescape`: percent-decoding with `+` as space, `none` on a
malformed escape. -/
def queryUnescape (cs : List Char) : Option (List Char) :=
  match cs with
  | [] => some []
  | '%' :: a :: b :: rest =>
    match hexVal a, hexVal b with
    | some x, some y =>
      match queryUnescape rest with
      | some r => some (Char.ofNat (x * 16 + y) :: r)
      | none => none
    | _, _ => none
  | '%' :: _ => none
  | '+' :: rest =>
    match queryUnescape rest with
    | some r => some (' ' :: r)
    | none => none
  | c :: rest =>
    match queryUnescape rest with
    | some r => some (c :: r)
    | none => none

/-- An unreserved byte `url.QueryEscape` keeps verbatim. -/
def isUnreserved (c : Char) : Bool :=
  decide (('A' ≤ c ∧ c ≤ 'Z') ∨ ('a' ≤ c ∧ c ≤ 'z') ∨ ('0' ≤ c ∧ c ≤ '9') ∨
    c = '-' ∨ c = '_' ∨ c = '.' ∨ c = '~')

def hexUpper (n : Nat) : Char := (chars "0123456789ABCDEF").getD n '0'

/-- `url.QueryEscape`: space to `+`, unreserved bytes kept, the rest
percent-encoded in uppercase hex. -/
def queryEscape (cs : List Char) : List Char :=
  cs.foldr
    (fun c acc =>
      if c = ' ' then '+' :: acc
      else if isUnreserved c then c :: acc
      else '%' :: hexUpper (c.toNat % 256 / 16) :: hexUpper (c.toNat % 16) :: acc)
    []

/-- Query segments, split on `&` and `;` as `url.ParseQuery`. -/
def splitQuerySegs : List Char → List (List Char)
  | [] => [[]]
  | c :: rest =>
    match splitQuerySegs rest with
    | [] => if c = '&' ∨ c = ';' then [[], []] else [[c]]
    | g :: gs => if c = '&' ∨ c = ';' then [] :: g :: gs else (c :: g) :: gs

/-- Split a query segment at the first `=`; without one the value is empty. -/
def splitEq (cs : List Char) : List Char × List Char :=
  match cs with
  | [] => ([], [])
  | '=' :: rest => ([], rest)
  | c :: rest =>
    let p := splitEq rest
    (c :: p.1, p.2)

def queryGetAux (segs : List (List Char)) (key : List Char) : List Char :=
  match segs with
  | [] => []
  | seg :: rest =>
    if seg = [] then queryGetAux rest key
    else
      let p := splitEq seg
      match queryUnescape p.1, queryUnescape p.2 with
      | some k, some v => if k = key then v else queryGetAux rest key
      | _, _ => queryGetAux rest key

/-- `r.URL.Query().Get(key)`: first value of the key in the raw query,
skipping empty and malformed pairs as `url.ParseQuery` does. -/
def queryGet (rawQuery key : List Char) : List Char :=
  queryGetAux (splitQuerySegs rawQuery) key

/-- `strings.LastIndex(path, "/")` as an optional index. -/
def lastSlashIdx : List Char → Option Nat
  | [] => none
  | c :: rest =>
    match lastSlashIdx rest with
    | some i => some (i + 1)
    | none => if c = '/' then some 0 else none

/-- The regular expression `^ts\d+$`. -/
def isTsComponent (cs : List Char) : Bool :=
  match cs with
  | 't' :: 's' :: d :: rest => (d :: rest).all (fun c => (digitVal c).isSome)
  | _ => false

/-- The `/ts<digits>` suffix extraction of `NewRequest`: the pair
`(forceTs, path)` after inspecting the last path component. -/
def extractForceTs (path1 : List Char) : List Char × List Char :=
  match lastSlashIdx path1 with
  | some i =>
    let lastComponent := path1.drop (i + 1)
    if isTsComponent lastComponent then (lastComponent.drop 2, path1.take i)
    else ([], path1)
  | none => ([], path1)

/-- `strings.SplitN(path, sep, 2)`, `none` when the separator is absent
(`len(parts) != 2`). -/
def splitN2 (cs : List Char) (sep : Char) : Option (List Char × List Char) :=
  match cs with
  | [] => none
  | c :: rest =>
    if c = sep then some ([], rest)
    else
      match splitN2 rest sep with
      | some p => some (c :: p.1, p.2)
      | none => none

/-- A normalized imageproxy request: remote URL and options. -/
structure Request where
  url : GoURL
  options : Options
deriving DecidableEq, Repr

/-- The options-less fallback of `NewRequest`: split off the first path
segment as options, parse the remainder as the remote URL. -/
def parseReqURLSplit (gp : List Char → Option GoURL) (useWebp : Bool)
    (path : List Char) : Option (GoURL × Options) :=
  match splitN2 path '/' with
  | none => none
  | some (p0, p1) =>
    match gp p1 with
    | none => none
    | some u2 => some (u2, ParseOptions (ofChars p0) useWebp)

/-- `NewRequest`'s URL/options extraction: try the whole path as an absolute
URL (zero options, webp format under webp support), else fall back to
options-prefix splitting. -/
def parseReqURL (gp : List Char → Option GoURL) (useWebp : Bool)
    (path : List Char) : Option (GoURL × Options) :=
  match gp path with
  | some u =>
    if u.IsAbs then
      some (u, if useWebp then ⟨0, 0, false, 0, false, false, 0, "webp"⟩ else emptyOptions)
    else parseReqURLSplit gp useWebp path
  | none => parseReqURLSplit gp useWebp path

/-- The tail of `NewRequest`: resolve against the base URL, require an
absolute http(s) URL, and canonicalize the query to at most a `ts`
parameter (forceTs from the path preferred, else the inbound ts). -/
def finishRequest (rr : GoURL → GoURL → GoURL) (baseURL : Option GoURL)
    (forceTs ts : List Char) (uo : GoURL × Options) : Option Request :=
  let u2 := match baseURL with | some b => rr b uo.1 | none => uo.1
  if u2.IsAbs = false then none
  else if ¬ (u2.scheme = chars "http" ∨ u2.scheme = chars "https") then none
  else
    some ⟨⟨u2.scheme, u2.host, u2.path,
      (if 0 < forceTs.length then chars "ts=" ++ queryEscape forceTs
       else if 0 < ts.length then chars "ts=" ++ queryEscape ts
       else []), u2.fragment⟩, uo.2⟩

/-- `NewRequest`: reject paths outside `/tools/im/`, extract a trailing
`/ts<digits>` segment, parse URL and options, then resolve and
canonicalize. `inPath` and `inQuery` are the inbound `r.URL` path and raw
query, `accept` the Accept header. -/
def NewRequest (gp : List Char → Option GoURL) (rr : GoURL → GoURL → GoURL)
    (baseURL : Option GoURL) (inPath inQuery accept : List Char) : Option Request :=
  let path0 := inPath.drop 1
  if (chars "tools/im/").isPrefixOf path0 then
    let fp := extractForceTs (path0.drop (chars "tools/im/").length)
    match parseReqURL gp (HasWebpSupport accept) fp.2 with
    | some uo => finishRequest rr baseURL fp.1 (queryGet inQuery (chars "ts")) uo
    | none => none
  else none

/-- The canonical query claim C2 states: `ts=<v>` with forceTs preferred,
else the inbound ts, else empty. -/
def canonicalTsQuery (forceTs ts : List Char) : List Char :=
  if 0 < forceTs.length then chars "ts=" ++ queryEscape forceTs
  else if 0 < ts.length then chars "ts=" ++ queryEscape ts
  else []

/-- Claim C2: for every accepted request the normalized URL query is
exactly the canonical `ts` query (trailing `/ts<digits>` segment preferred,
else the inbound `ts` parameter, else empty); two inbound queries agreeing
on `ts` (so differing in `tk` or anything else) normalize to the very same
request, hence the same outer-cache key. -/
theorem c2_query_canonicalization (gp : List Char → Option GoURL)
    (rr : GoURL → GoURL → GoURL) (baseURL : Option GoURL)
    (inPath inQuery inQuery2 accept : List Char) :
    (∀ req, NewRequest gp rr baseURL inPath inQuery accept = some req →
      req.url.rawQuery =
        canonicalTsQuery
          (extractForceTs ((inPath.drop 1).drop (chars "tools/im/").length)).1
          (queryGet inQuery (chars "ts"))) ∧
      (queryGet inQuery (chars "ts") = queryGet inQuery2 (chars "ts") →
        NewRequest gp rr baseURL inPath inQuery accept =
          NewRequest gp rr baseURL inPath inQuery2 accept) ∧
      (∀ req req2, queryGet inQuery (chars "ts") = queryGet inQuery2 (chars "ts") →
        NewRequest gp rr baseURL inPath inQuery accept = some req →
        NewRequest gp rr baseURL inPath inQuery2 accept = some req2 →
        CacheKeyForURL req.url = CacheKeyForURL req2.url) := by
  have hfin : ∀ fts ts uo req, finishRequest rr baseURL fts ts uo = some req →
      req.url.rawQuery = canonicalTsQuery fts ts := by
    intro fts ts uo req h
    simp only [finishRequest] at h
    split at h
    · cases h
    · split at h
      · cases h
      · cases h
        rfl
  have hsame : queryGet inQuery (chars "ts") = queryGet inQuery2 (chars "ts") →
      NewRequest gp rr baseURL inPath inQuery accept =
        NewRequest gp rr baseURL inPath inQuery2 accept := by
    intro hts
    unfold NewRequest
    simp only [hts]
  refine ⟨?_, hsame, ?_⟩
  · intro req hok
    simp only [NewRequest] at hok
    by_cases hpre : (chars "tools/im/").isPrefixOf (inPath.drop 1) = true
    · rw [if_pos hpre] at hok
      cases hstep : parseReqURL gp (HasWebpSupport accept)
          (extractForceTs ((inPath.drop 1).drop (chars "tools/im/").length)).2 with
      | none =>
        rw [hstep] at hok
        cases hok
      | some uo =>
        rw [hstep] at hok
        exact hfin _ _ uo req hok
    · rw [if_neg hpre] at hok
      cases hok
  · intro req req2 hts h1 h2
    have h12 := hsame hts
    rw [h1, h2] at h12
    simp only [Option.some.injEq] at h12
    rw [h12]

/-! ### Diskv hot cache (src/unnamed/part_001, package diskv). The cache
map is an association list with unique keys, sizes are `uint64` values that
the invariant keeps far from wrapping, the filesystem is a partial map, and
the map iteration of `ensureCacheSpaceWithLock` visits entries in list
order. A `panicked` outcome models reaching a Go `panic`. -/

/-- `d.cache[key]` lookup. -/
def lookupCache (m : List (String × List Nat)) (k : String) : Option (List Nat) :=
  match m.find? (fun p => p.1 == k) with
  | some p => some p.2
  | none => none

/-- `delete(d.cache, key)`. -/
def removeKey (m : List (String × List Nat)) (k : String) : List (String × List Nat) :=
  m.filter (fun p => decide (¬ p.1 = k))

/-- `d.cache[key] = val`: replace when present, else append. -/
def mapSet (m : List (String × List Nat)) (k : String) (v : List Nat) :
    List (String × List Nat) :=
  match lookupCache m k with
  | some _ => m.map (fun p => if p.1 = k then (k, v) else p)
  | none => m ++ [(k, v)]

/-- Total byte size of the cached values. -/
def sumLens (m : List (String × List Nat)) : Nat := (m.map (fun p => p.2.length)).sum

/-- The Diskv fields the cache accounting touches. -/
structure DiskvState where
  cache : List (String × List Nat)
  cacheSize : Nat
  cacheSizeMax : Nat
  disk : String → Option (List Nat)

/-- `uncacheWithLock`: drop the key, subtract the size. -/
def uncacheWithLock (st : DiskvState) (key : String) (sz : Nat) : DiskvState :=
  ⟨removeKey st.cache key, st.cacheSize - sz, st.cacheSizeMax, st.disk⟩

/-- `bustCacheWithLock`: uncache the key when present. -/
def bustCacheWithLock (st : DiskvState) (key : String) : DiskvState :=
  match lookupCache st.cache key with
  | some val => uncacheWithLock st key val.length
  | none => st

/-- The eviction loop of `ensureCacheSpaceWithLock`: walk the entries, stop
as soon as the value fits, else uncache the entry. -/
def evictLoop (entries cache : List (String × List Nat))
    (cacheSize valueSize mx : Nat) : List (String × List Nat) × Nat :=
  match entries with
  | [] => (cache, cacheSize)
  | (k, v) :: rest =>
    if cacheSize + valueSize ≤ mx then (cache, cacheSize)
    else evictLoop rest (removeKey cache k) (cacheSize - v.length) valueSize mx

inductive EnsureResult where
  | err : EnsureResult
  | panicked : EnsureResult
  | ok : List (String × List Nat) → Nat → EnsureResult
deriving Repr

/-- `ensureCacheSpaceWithLock`: reject oversize values, evict until the
value fits, panic when it still does not. -/
def ensureCacheSpaceWithLock (cache : List (String × List Nat))
    (cacheSize valueSize mx : Nat) : EnsureResult :=
  if mx < valueSize then .err
  else
    let p := evictLoop cache cache cacheSize valueSize mx
    if p.2 + valueSize ≤ mx then .ok p.1 p.2 else .panicked

inductive CacheOutcome where
  | err : DiskvState → CacheOutcome
  | panicked : CacheOutcome
  | ok : DiskvState → CacheOutcome

/-- `cacheWithLock`: make room, re-check the strict bound (a Go `panic` when
violated), then insert and grow the size. -/
def cacheWithLock (st : DiskvState) (key : String) (val : List Nat) : CacheOutcome :=
  match ensureCacheSpaceWithLock st.cache st.cacheSize val.length st.cacheSizeMax with
  | .err => .err st
  | .panicked => .panicked
  | .ok c2 s2 =>
    if st.cacheSizeMax < s2 + val.length then .panicked
    else .ok ⟨mapSet c2 key val, s2 + val.length, st.cacheSizeMax, st.disk⟩

/-- The Diskv operations of claim C10. -/
inductive DiskvOp where
  | read (key : String)
  | writeStream (key : String) (val : List Nat) (sync : Bool)
  | erase (key : String)
  | eraseAll
  | has (key : String)

/-- One operation, sequentially; `none` means a Go `panic` was reached.
`Read` serves cached keys from memory and otherwise siphons the disk value
into the cache (failure to cache is ignored); `WriteStream` writes the file
then busts the key; `Erase` busts the key and removes the file; `EraseAll`
resets everything; `Has` only inspects. -/
def applyOp (st : DiskvState) (op : DiskvOp) : Option DiskvState :=
  match op with
  | .read key =>
    match lookupCache st.cache key with
    | some _ => some st
    | none =>
      match st.disk key with
      | none => some st
      | some val =>
        if 0 < st.cacheSizeMax then
          match cacheWithLock st key val with
          | .ok st2 => some st2
          | .err st2 => some st2
          | .panicked => none
        else some st
  | .writeStream key val _ =>
    let b := bustCacheWithLock st key
    some ⟨b.cache, b.cacheSize, b.cacheSizeMax,
      fun k => if k = key then some val else st.disk k⟩
  | .erase key =>
    let b := bustCacheWithLock st key
    some ⟨b.cache, b.cacheSize, b.cacheSizeMax,
      fun k => if k = key then none else st.disk k⟩
  | .eraseAll => some ⟨[], 0, st.cacheSizeMax, fun _ => none⟩
  | .has _ => some st

/-- Run a sequence of operations, stopping at a panic. -/
def runOps (st : DiskvState) : List DiskvOp → Option DiskvState
  | [] => some st
  | op :: rest =>
    match applyOp st op with
    | some st2 => runOps st2 rest
    | none => none

/-- The hot-cache accounting invariant of claim C10. -/
def CacheInv (st : DiskvState) : Prop :=
  st.cacheSize = sumLens st.cache ∧ st.cacheSize ≤ st.cacheSizeMax ∧
    (st.cache.map Prod.fst).Nodup

theorem sumLens_cons (k : String) (v : List Nat) (m : List (String × List Nat)) :
    sumLens ((k, v) :: m) = v.length + sumLens m := by
  simp [sumLens]

theorem sumLens_append_single (m : List (String × List Nat)) (k : String) (v : List Nat) :
    sumLens (m ++ [(k, v)]) = sumLens m + v.length := by
  simp [sumLens]

theorem lookupCache_eq_none (m : List (String × List Nat)) (k : String) :
    lookupCache m k = none ↔ ∀ p ∈ m, ¬ p.1 = k := by
  unfold lookupCache
  rcases h : m.find? (fun p => p.1 == k) with _ | p
  · rw [h]
    exact iff_of_true rfl (fun p hp => by simpa using List.find?_eq_none.mp h p hp)
  · rw [h]
    have hp := List.find?_some h
    have hmem := List.mem_of_find?_eq_some h
    exact iff_of_false (by simp) (fun hall => absurd (by simpa using hp) (hall p hmem))

theorem removeKey_cons_self (k : String) (v : List Nat) (rest : List (String × List Nat))
    (h : ∀ p ∈ rest, ¬ p.1 = k) : removeKey ((k, v) :: rest) k = rest := by
  unfold removeKey
  rw [List.filter_cons]
  have hc : decide (¬ ((k, v) : String × List Nat).1 = k) = false :=
    decide_eq_false (by simp)
  rw [hc]
  simp only [Bool.false_eq_true, if_false]
  exact List.filter_eq_self.mpr (fun p hp => by simpa using h p hp)

theorem lookup_remove_sum (m : List (String × List Nat)) (k : String) (v : List Nat)
    (hnd : (m.map Prod.fst).Nodup) (h : lookupCache m k = some v) :
    sumLens m = v.length + sumLens (removeKey m k) := by
  induction m with
  | nil => simp [lookupCache] at h
  | cons hd rest ih =>
    obtain ⟨k2, v2⟩ := hd
    rw [List.map_cons, List.nodup_cons] at hnd
    by_cases hk : k2 = k
    · subst hk
      have hl : lookupCache ((k2, v2) :: rest) k2 = some v2 := by
        unfold lookupCache
        rw [List.find?_cons_of_pos _ (by simp)]
      rw [hl] at h
      injection h with h2
      subst h2
      have hrm : removeKey ((k2, v2) :: rest) k2 = rest :=
        removeKey_cons_self k2 v2 rest
          (fun p hp heq => hnd.1 (List.mem_map.mpr ⟨p, hp, heq⟩))
      rw [hrm, sumLens_cons]
    · have hl : lookupCache ((k2, v2) :: rest) k = lookupCache rest k := by
        unfold lookupCache
        rw [List.find?_cons_of_neg _ (by simp [hk])]
      rw [hl] at h
      have hrm : removeKey ((k2, v2) :: rest) k = (k2, v2) :: removeKey rest k := by
        unfold removeKey
        rw [List.filter_cons]
        have hc : decide (¬ ((k2, v2) : String × List Nat).1 = k) = true :=
          decide_eq_true (by simpa using hk)
        rw [hc]
        simp
      rw [hrm, sumLens_cons, sumLens_cons, ih hnd.2 h]
      omega

theorem evictLoop_self (m : List (String × List Nat)) (v mx : Nat)
    (hnd : (m.map Prod.fst).Nodup) :
    (evictLoop m m (sumLens m) v mx).2 = sumLens (evictLoop m m (sumLens m) v mx).1 ∧
      (evictLoop m m (sumLens m) v mx).1.Sublist m ∧
      ((evictLoop m m (sumLens m) v mx).2 + v ≤ mx ∨
        (evictLoop m m (sumLens m) v mx).1 = []) := by
  induction m with
  | nil =>
    refine ⟨?_, ?_, Or.inr ?_⟩ <;> simp [evictLoop, sumLens]
  | cons hd rest ih =>
    obtain ⟨k, val⟩ := hd
    rw [List.map_cons, List.nodup_cons] at hnd
    by_cases hsafe : sumLens ((k, val) :: rest) + v ≤ mx
    · have hstop : evictLoop ((k, val) :: rest) ((k, val) :: rest)
          (sumLens ((k, val) :: rest)) v mx =
          ((k, val) :: rest, sumLens ((k, val) :: rest)) := by
        show (if sumLens ((k, val) :: rest) + v ≤ mx then
            (((k, val) :: rest), sumLens ((k, val) :: rest))
          else evictLoop rest (removeKey ((k, val) :: rest) k)
            (sumLens ((k, val) :: rest) - val.length) v mx) =
          ((k, val) :: rest, sumLens ((k, val) :: rest))
        rw [if_pos hsafe]
      rw [hstop]
      exact ⟨rfl, List.Sublist.refl _, Or.inl hsafe⟩
    · have hrm : removeKey ((k, val) :: rest) k = rest :=
        removeKey_cons_self k val rest
          (fun p hp heq => hnd.1 (List.mem_map.mpr ⟨p, hp, heq⟩))
      have hsz : sumLens ((k, val) :: rest) - val.length = sumLens rest := by
        rw [sumLens_cons]
        omega
      have hstep : evictLoop ((k, val) :: rest) ((k, val) :: rest)
          (sumLens ((k, val) :: rest)) v mx = evictLoop rest rest (sumLens rest) v mx := by
        show (if sumLens ((k, val) :: rest) + v ≤ mx then
            (((k, val) :: rest), sumLens ((k, val) :: rest))
          else evictLoop rest (removeKey ((k, val) :: rest) k)
            (sumLens ((k, val) :: rest) - val.length) v mx) =
          evictLoop rest rest (sumLens rest) v mx
        rw [if_neg hsafe, hrm, hsz]
      rw [hstep]
      obtain ⟨h1, h2, h3⟩ := ih hnd.2
      exact ⟨h1, h2.trans (List.sublist_cons_self _ _), h3⟩

theorem cacheWithLock_spec (st : DiskvState) (key : String) (val : List Nat)
    (hinv : CacheInv st) (hnone : lookupCache st.cache key = none) :
    (st.cacheSizeMax < val.length ∧ cacheWithLock st key val = .err st) ∨
      ∃ st2, cacheWithLock st key val = .ok st2 ∧ CacheInv st2 ∧
        st2.cacheSizeMax = st.cacheSizeMax ∧ st2.disk = st.disk := by
  obtain ⟨hsum, hle, hnd⟩ := hinv
  by_cases hbig : st.cacheSizeMax < val.length
  · left
    refine ⟨hbig, ?_⟩
    unfold cacheWithLock ensureCacheSpaceWithLock
    rw [if_pos hbig]
  · right
    obtain ⟨h1, h2, h3⟩ := evictLoop_self st.cache val.length st.cacheSizeMax hnd
    obtain ⟨c2, s2, hpe⟩ : ∃ c2 s2,
        evictLoop st.cache st.cache (sumLens st.cache) val.length st.cacheSizeMax =
          (c2, s2) := ⟨_, _, rfl⟩
    rw [hpe] at h1 h2 h3
    dsimp only at h1 h2 h3
    have hfits : s2 + val.length ≤ st.cacheSizeMax := by
      rcases h3 with h | rfl
      · exact h
      · simp [sumLens] at h1
        omega
    have hens : ensureCacheSpaceWithLock st.cache st.cacheSize val.length
        st.cacheSizeMax = .ok c2 s2 := by
      unfold ensureCacheSpaceWithLock
      rw [if_neg hbig, hsum]
      dsimp only
      rw [hpe]
      dsimp only
      rw [if_pos hfits]
    have hnotin : lookupCache c2 key = none := by
      rw [lookupCache_eq_none] at hnone ⊢
      exact fun p hp => hnone p (h2.subset hp)
    refine ⟨⟨mapSet c2 key val, s2 + val.length, st.cacheSizeMax, st.disk⟩, ?_, ⟨?_, ?_, ?_⟩,
      rfl, rfl⟩
    · unfold cacheWithLock
      rw [hens]
      dsimp only
      rw [if_neg (by omega)]
    · show s2 + val.length = sumLens (mapSet c2 key val)
      unfold mapSet
      rw [hnotin, sumLens_append_single, h1]
    · exact hfits
    · show ((mapSet c2 key val).map Prod.fst).Nodup
      unfold mapSet
      rw [hnotin, List.map_append, List.nodup_append]
      refine ⟨List.Nodup.sublist (h2.map Prod.fst) hnd, by simp, ?_⟩
      rw [lookupCache_eq_none] at hnotin
      simp only [List.map_cons, List.map_nil, List.disjoint_singleton]
      intro hmem
      obtain ⟨p, hp, hfst⟩ := List.mem_map.mp hmem
      exact hnotin p hp hfst
  
theorem bustCacheWithLock_inv (st : DiskvState) (key : String) (hinv : CacheInv st) :
    CacheInv (bustCacheWithLock st key) ∧
      (bustCacheWithLock st key).cacheSizeMax = st.cacheSizeMax := by
  obtain ⟨hsum, hle, hnd⟩ := hinv
  unfold bustCacheWithLock
  cases hl : lookupCache st.cache key with
  | none => exact ⟨⟨hsum, hle, hnd⟩, rfl⟩
  | some v =>
    have hs := lookup_remove_sum st.cache key v hnd hl
    have hsub : (removeKey st.cache key).Sublist st.cache := List.filter_sublist _
    refine ⟨⟨?_, ?_, ?_⟩, rfl⟩
    · show st.cacheSize - v.length = sumLens (removeKey st.cache key)
      omega
    · show st.cacheSize - v.length ≤ st.cacheSizeMax
      omega
    · exact List.Nodup.sublist (hsub.map Prod.fst) hnd

theorem applyOp_inv (st : DiskvState) (op : DiskvOp) (hinv : CacheInv st) :
    ∃ st2, applyOp st op = some st2 ∧ CacheInv st2 := by
  obtain ⟨hsum, hle, hnd⟩ := hinv
  cases op with
  | read key =>
    simp only [applyOp]
    cases hl : lookupCache st.cache key with
    | some v => exact ⟨st, rfl, hsum, hle, hnd⟩
    | none =>
      cases hd : st.disk key with
      | none => exact ⟨st, rfl, hsum, hle, hnd⟩
      | some val =>
        dsimp only
        by_cases hmx : 0 < st.cacheSizeMax
        · rw [if_pos hmx]
          rcases cacheWithLock_spec st key val ⟨hsum, hle, hnd⟩ hl with
            ⟨-, hcw⟩ | ⟨st2, hcw, hinv2, -, -⟩
          · rw [hcw]
            exact ⟨st, rfl, hsum, hle, hnd⟩
          · rw [hcw]
            exact ⟨st2, rfl, hinv2⟩
        · rw [if_neg hmx]
          exact ⟨st, rfl, hsum, hle, hnd⟩
  | writeStream key val sync =>
    obtain ⟨⟨h1, h2, h3⟩, -⟩ := bustCacheWithLock_inv st key ⟨hsum, hle, hnd⟩
    exact ⟨_, rfl, h1, h2, h3⟩
  | erase key =>
    obtain ⟨⟨h1, h2, h3⟩, -⟩ := bustCacheWithLock_inv st key ⟨hsum, hle, hnd⟩
    exact ⟨_, rfl, h1, h2, h3⟩
  | eraseAll => exact ⟨_, rfl, by simp [sumLens], Nat.zero_le _, List.nodup_nil⟩
  | has key => exact ⟨st, rfl, hsum, hle, hnd⟩

/-- Claim C10: starting from a state satisfying the accounting invariant,
every sequence of Diskv operations runs without reaching either panic and
preserves `cacheSize = sum of cached value sizes ≤ CacheSizeMax`; a value
larger than `CacheSizeMax` is never inserted — `cacheWithLock` returns an
error and leaves the state unchanged. -/
theorem c10_cache_invariant (st : DiskvState) (ops : List DiskvOp) (hinv : CacheInv st) :
    (∃ st2, runOps st ops = some st2 ∧ CacheInv st2) ∧
      (∀ key val, st.cacheSizeMax < val.length → cacheWithLock st key val = .err st) := by
  constructor
  · have main : ∀ (l : List DiskvOp) (s : DiskvState), CacheInv s →
        ∃ st2, runOps s l = some st2 ∧ CacheInv st2 := by
      intro l
      induction l with
      | nil => exact fun s h => ⟨s, rfl, h⟩
      | cons op rest ih =>
        intro s h
        obtain ⟨st2, hap, hinv2⟩ := applyOp_inv s op h
        obtain ⟨st3, hrun, hinv3⟩ := ih st2 hinv2
        refine ⟨st3, ?_, hinv3⟩
        unfold runOps
        rw [hap]
        exact hrun
    exact main ops st hinv
  · intro key val hbig
    unfold cacheWithLock ensureCacheSpaceWithLock
    rw [if_pos hbig]

theorem c10_witness :
    CacheInv ⟨[], 0, 10, fun _ => some [1, 2, 3]⟩ ∧
      ((∃ st2, runOps ⟨[], 0, 10, fun _ => some [1, 2, 3]⟩
            [.read "a", .writeStream "b" [1] false, .erase "a", .has "a", .eraseAll] =
            some st2 ∧ CacheInv st2) ∧
        (∀ key val, (⟨[], 0, 10, fun _ => some [1, 2, 3]⟩ : DiskvState).cacheSizeMax <
            val.length →
          cacheWithLock ⟨[], 0, 10, fun _ => some [1, 2, 3]⟩ key val =
            .err ⟨[], 0, 10, fun _ => some [1, 2, 3]⟩)) :=
  ⟨⟨by simp [sumLens], Nat.zero_le _, List.nodup_nil⟩,
    c10_cache_invariant ⟨[], 0, 10, fun _ => some [1, 2, 3]⟩
      [.read "a", .writeStream "b" [1] false, .erase "a", .has "a", .eraseAll]
      ⟨by simp [sumLens], Nat.zero_le _, List.nodup_nil⟩⟩

end Improxy